import Mathlib

/-!
Verification of the CSV-backed article store, the generation pipeline and the
publisher of the blog-automation repository.  The TypeScript sources are
shallowly embedded: strings are modelled as `List Char` internally (with
`String` wrappers at the API boundary), file contents are explicit values,
and the network / filesystem effects are replaced by explicit parameters
describing their outcomes.
-/

set_option maxHeartbeats 1000000
set_option linter.unnecessarySeqFocus false
set_option linter.unreachableTactic false
set_option linter.unusedTactic false
set_option linter.unusedVariables false

namespace BlogAutomate

/-- Record type of `ArticleData` (src/types/article.ts).  `id` is optional;
the JavaScript values `undefined` and `NaN` are both modelled by `none`
(they behave identically at every use site: both are falsy and both fail
strict equality with every number). -/
structure ArticleData where
  id : Option Int
  category_id : String
  title : String
  body : String
  slug : String
  status : String
  meta_title : String
  meta_description : String
  api_posted : Bool
deriving DecidableEq, Repr, Inhabited

/-- Partial update object (`Partial<ArticleData>`): a field set to `some v`
is present and overrides; `none` means the field is absent. -/
structure ArticleUpdate where
  id : Option Int
  category_id : Option String
  title : Option String
  body : Option String
  slug : Option String
  status : Option String
  meta_title : Option String
  meta_description : Option String
  api_posted : Option Bool
deriving DecidableEq, Repr, Inhabited

/-- The empty update (spread of an empty object). -/
def noUpdate : ArticleUpdate :=
  ⟨none, none, none, none, none, none, none, none, none⟩

/-- JavaScript object spread `\x7b...a, ...u\x7d`: fields present in `u`
override the corresponding fields of `a`. -/
def mergeArticle (a : ArticleData) (u : ArticleUpdate) : ArticleData where
  id := match u.id with | some v => some v | none => a.id
  category_id := u.category_id.getD a.category_id
  title := u.title.getD a.title
  body := u.body.getD a.body
  slug := u.slug.getD a.slug
  status := u.status.getD a.status
  meta_title := u.meta_title.getD a.meta_title
  meta_description := u.meta_description.getD a.meta_description
  api_posted := u.api_posted.getD a.api_posted

/-- Number of double-quote characters in a char list. -/
def countQ (l : List Char) : Nat := l.count '\"'

/-- Double every double-quote character (the `replace(/"/g, '""')` step of
`escapeCSVField`). -/
def doubleQ : List Char → List Char
  | [] => []
  | c :: t => if c = '\"' then '\"' :: '\"' :: doubleQ t else c :: doubleQ t

/-- Does the field need CSV quoting (contains a comma, newline or quote)? -/
def needsQuote (l : List Char) : Bool :=
  l.contains ',' || l.contains '\n' || l.contains '\"'

/-- `escapeCSVField` from the article CSV module: wrap in quotes and double
internal quotes when the field contains a comma, newline or quote. -/
def escapeCSVField (l : List Char) : List Char :=
  if needsQuote l then '\"' :: (doubleQ l ++ ['\"']) else l

/-- Fuel-driven digit accumulator for decimal rendering. -/
def natToCharsAux : Nat → Nat → List Char → List Char
  | 0, _, acc => acc
  | fuel + 1, n, acc =>
    if n < 10 then Nat.digitChar n :: acc
    else natToCharsAux fuel (n / 10) (Nat.digitChar (n % 10) :: acc)

/-- Decimal digit characters of a natural number. -/
def natToChars (n : Nat) : List Char := natToCharsAux (n + 1) n []

/-- Decimal rendering of an integer, as JavaScript template interpolation
produces for a number. -/
def intToChars (n : Int) : List Char :=
  if n < 0 then '-' :: natToChars (-n).toNat else natToChars n.toNat

/-- Characters treated as whitespace by `String.prototype.trim`. -/
def isWsChar (c : Char) : Bool :=
  c = ' ' || c = '\t' || c = '\n' || c = '\r' || c = '\x0b' || c = '\x0c'

/-- ASCII decimal digit test. -/
def isDigitChar (c : Char) : Bool := '0' ≤ c && c ≤ '9'

/-- `parseInt(s, 10)`: skip leading whitespace, optional sign, then the
longest digit prefix; `none` models `NaN` (no digits found). -/
def jsParseInt10 (l : List Char) : Option Int :=
  let l1 := l.dropWhile isWsChar
  let l2 := if l1.head? = some '-' ∨ l1.head? = some '+' then l1.tail else l1
  let ds := l2.takeWhile isDigitChar
  if ds = [] then none
  else
    let v : Int := Int.ofNat (ds.foldl (fun a c => 10 * a + (c.toNat - 48)) 0)
    some (if l1.head? = some '-' then -v else v)

/-- The character-level field splitter of `parseCSVLine`: walks the line with
an `insideQuotes` flag, `cur` is the reversed accumulator of the current
field. -/
def parseFieldsAux : Bool → List Char → List Char → List (List Char)
  | _, cur, [] => [cur.reverse]
  | inside, cur, c :: rest =>
    if c = '\"' then
      if inside then
        match rest with
        | d :: rest2 =>
          if d = '\"' then parseFieldsAux true ('\"' :: cur) rest2
          else parseFieldsAux false cur (d :: rest2)
        | [] => parseFieldsAux false cur []
      else parseFieldsAux true cur rest
    else if c = ',' then
      if inside then parseFieldsAux true (c :: cur) rest
      else cur.reverse :: parseFieldsAux false [] rest
    else parseFieldsAux inside (c :: cur) rest

/-- Field list of one CSV record string. -/
def splitCSVFields (l : List Char) : List (List Char) := parseFieldsAux false [] l

/-- `parseCSVLine`: split into fields and build an `ArticleData`.  Missing
trailing fields are `undefined` in JavaScript; they are modelled by `[]`,
which is observationally equivalent at every use site (truthiness test for
`id`, `|| 'draft'` for `status`, `=== '1'` for `api_posted`, raw strings
otherwise). -/
def parseCSVLineL (l : List Char) : ArticleData :=
  let fs := splitCSVFields l
  let f0 := fs.getD 0 []
  let f5 := fs.getD 5 []
  { id := if f0 = [] then none else jsParseInt10 f0
    category_id := ⟨fs.getD 1 []⟩
    title := ⟨fs.getD 2 []⟩
    body := ⟨fs.getD 3 []⟩
    slug := ⟨fs.getD 4 []⟩
    status := if f5 = [] then "draft" else ⟨f5⟩
    meta_title := ⟨fs.getD 6 []⟩
    meta_description := ⟨fs.getD 7 []⟩
    api_posted := fs.getD 8 [] = ['1'] }

/-- The id column as written by the store (`article.id` after assignment in
`appendArticleToCSV`, `article.id || ''` in `updateArticleInCSV`; both render
a falsy id as the empty string and a number as its decimal form). -/
def idFieldChars : Option Int → List Char
  | none => []
  | some n => if n = 0 then [] else intToChars n

/-- One serialized CSV line of an article, in the store's fixed column order;
only title, body, meta_title and meta_description pass through
`escapeCSVField`. -/
def serializeArticleL (a : ArticleData) : List Char :=
  idFieldChars a.id ++
  ',' :: a.category_id.data ++
  ',' :: escapeCSVField a.title.data ++
  ',' :: escapeCSVField a.body.data ++
  ',' :: a.slug.data ++
  ',' :: a.status.data ++
  ',' :: escapeCSVField a.meta_title.data ++
  ',' :: escapeCSVField a.meta_description.data ++
  ',' :: [if a.api_posted then '1' else '0']

/-- Split a char list at every newline (JavaScript `split('\n')`). -/
def splitNl : List Char → List (List Char)
  | [] => [[]]
  | c :: t =>
    if c = '\n' then [] :: splitNl t
    else
      match splitNl t with
      | [] => [[c]]
      | s :: ss => (c :: s) :: ss

/-- The record joiner of `readArticlesFromCSV`: accumulate physical lines
into `cur` (re-inserting the newline) until the quote count of the
accumulated record is even, then emit it. -/
def joinLinesAux : List Char → List (List Char) → List (List Char)
  | cur, [] => if cur = [] then [] else [cur]
  | cur, p :: ps =>
    let cur2 := if cur = [] then p else cur ++ '\n' :: p
    if countQ cur2 % 2 = 0 then cur2 :: joinLinesAux [] ps
    else joinLinesAux cur2 ps

/-- `String.prototype.trim`: drop whitespace from both ends. -/
def jsTrim (l : List Char) : List Char :=
  ((l.dropWhile isWsChar).reverse.dropWhile isWsChar).reverse

/-- `readArticlesFromCSV` applied to existing file content: trim, split into
physical lines, drop the header, rejoin quoted records, parse each. -/
def readArticlesFromCSVL (content : List Char) : List ArticleData :=
  let lines := splitNl (jsTrim content)
  if lines.length ≤ 1 then []
  else (joinLinesAux [] lines.tail).map parseCSVLineL

/-- The store read operation on an optional file (`none` models a file that
does not exist: `existsSync` fails and the function returns `[]`). -/
def readFromStore : Option (List Char) → List ArticleData
  | none => []
  | some c => readArticlesFromCSVL c

/-- Header line of article.csv. -/
def headerChars : List Char :=
  "id,category_id,title,body,slug,status,meta_title,meta_description,api_posted".data

/-- Serialized lines of a record list, each followed by a newline. -/
def serializeAll : List ArticleData → List Char
  | [] => []
  | r :: t => serializeArticleL r ++ '\n' :: serializeAll t

/-- A whole article file as the store itself writes it: header line then one
serialized line per record (this is exactly what `updateArticleInCSV`
rewrites, and what repeated `appendArticleToCSV` on a file with a header
produces). -/
def articlesFileL (rs : List ArticleData) : List Char :=
  headerChars ++ '\n' :: serializeAll rs

/-- The `reduce` computing the running maximum of the truthy ids, starting
from `m` (`(max, a) => (a.id && a.id > max ? a.id : max)`). -/
def maxFold (rs : List ArticleData) (m : Int) : Int :=
  rs.foldl
    (fun m x => match x.id with
      | some n => if n ≠ 0 ∧ m < n then n else m
      | none => m) m

/-- The maximum truthy id of the read articles, `0` for an empty store. -/
def maxIdOf (rs : List ArticleData) : Int := maxFold rs 0

/-- `appendArticleToCSV`: assign `max(existing truthy ids)+1` when the id is
falsy, then append the serialized line; returns the (possibly re-identified)
record and the new file content. -/
def appendArticleToCSVL (file : Option (List Char)) (a : ArticleData) :
    ArticleData × List Char :=
  let idFalsy : Bool := match a.id with | none => true | some n => n = 0
  let a2 :=
    if idFalsy then
      { a with id := some (maxIdOf (readFromStore file) + 1) }
    else a
  (a2, (file.getD []) ++ serializeArticleL a2 ++ ['\n'])

/-- `updateArticleInCSV`: read all records, locate the first record whose id
strictly equals `articleId`, fail with the NotFound error if there is none,
otherwise merge the partial fields over it and rewrite the whole file.  The
error is thrown before any write happens, so the error branch carries no new
file content. -/
def updateArticleInCSVL (file : Option (List Char)) (articleId : Int)
    (u : ArticleUpdate) : Except String (List Char) :=
  let arts := readFromStore file
  match arts.findIdx? (fun a => a.id = some articleId) with
  | none =>
    .error ("Article with id " ++ (⟨intToChars articleId⟩ : String) ++
      " not found in CSV")
  | some i => .ok (articlesFileL (arts.set i (mergeArticle (arts.getD i default) u)))

/-- The file state after running update: unchanged (no write) on the error
path, the rewritten content on success. -/
def fileAfterUpdate (file : Option (List Char)) (articleId : Int)
    (u : ArticleUpdate) : Option (List Char) :=
  match updateArticleInCSVL file articleId u with
  | .ok c => some c
  | .error _ => file

/-- String-level wrapper for `readArticlesFromCSV`. -/
def readArticlesFromCSV (s : String) : List ArticleData :=
  readArticlesFromCSVL s.data

/-- String-level wrapper for one serialized article line. -/
def serializeArticle (a : ArticleData) : String := ⟨serializeArticleL a⟩

/-- String-level wrapper for a whole article file. -/
def articlesFile (rs : List ArticleData) : String := ⟨articlesFileL rs⟩

/-- String-level wrapper for `appendArticleToCSV`. -/
def appendArticleToCSV (file : Option String) (a : ArticleData) :
    ArticleData × String :=
  let r := appendArticleToCSVL (file.map String.data) a
  (r.1, ⟨r.2⟩)

/-- String-level wrapper for `updateArticleInCSV`. -/
def updateArticleInCSV (file : Option String) (articleId : Int)
    (u : ArticleUpdate) : Except String String :=
  (updateArticleInCSVL (file.map String.data) articleId u).map fun c => ⟨c⟩

/-- A field value that survives verbatim serialization: no comma, quote or
newline. -/
def cleanField (l : List Char) : Bool :=
  l.all fun c => c ≠ ',' && c ≠ '\"' && c ≠ '\n'

/-- Well-formedness of a stored article record: the id is not the
unserializable `0`, and the three verbatim string columns are clean, with a
nonempty status (an empty status column reads back as `draft`). -/
def WFArticle (a : ArticleData) : Bool :=
  (a.id ≠ some 0 : Bool) &&
  cleanField a.category_id.data &&
  cleanField a.slug.data &&
  cleanField a.status.data &&
  a.status ≠ ""

end BlogAutomate

namespace BlogAutomate

set_option linter.unnecessarySeqFocus false
set_option linter.unreachableTactic false
set_option linter.unusedTactic false

theorem pfa_nil (ins : Bool) (cur : List Char) :
    parseFieldsAux ins cur [] = [cur.reverse] := by
  simp [parseFieldsAux]

theorem pfa_quote_out (cur rest : List Char) :
    parseFieldsAux false cur ('\"' :: rest) = parseFieldsAux true cur rest := by
  rw [parseFieldsAux.eq_def]; norm_num

theorem pfa_quote_in_quote (cur rest : List Char) :
    parseFieldsAux true cur ('\"' :: '\"' :: rest) =
      parseFieldsAux true ('\"' :: cur) rest := by
  rw [parseFieldsAux.eq_def]; norm_num

theorem pfa_quote_in_other (cur rest : List Char) (d : Char) (h : d ≠ '\"') :
    parseFieldsAux true cur ('\"' :: d :: rest) =
      parseFieldsAux false cur (d :: rest) := by
  simp [parseFieldsAux, h]

theorem pfa_quote_in_nil (cur : List Char) :
    parseFieldsAux true cur ['\"'] = [cur.reverse] := by
  rw [parseFieldsAux.eq_def]; norm_num
  exact pfa_nil false cur

theorem doubleQ_quote (t : List Char) :
    doubleQ ('\"' :: t) = '\"' :: '\"' :: doubleQ t := by
  simp [doubleQ]

theorem doubleQ_other (t : List Char) (c : Char) (h : c ≠ '\"') :
    doubleQ (c :: t) = c :: doubleQ t := by
  simp [doubleQ, h]

theorem pfa_comma_out (cur rest : List Char) :
    parseFieldsAux false cur (',' :: rest) =
      cur.reverse :: parseFieldsAux false [] rest := by
  rw [parseFieldsAux.eq_def]; norm_num <;> exact fun h => absurd h (by decide)

theorem pfa_comma_in (cur rest : List Char) :
    parseFieldsAux true cur (',' :: rest) =
      parseFieldsAux true (',' :: cur) rest := by
  rw [parseFieldsAux.eq_def]; norm_num <;> exact fun h => absurd h (by decide)

theorem pfa_other (ins : Bool) (cur rest : List Char) (c : Char)
    (h1 : c ≠ '\"') (h2 : c ≠ ',') :
    parseFieldsAux ins cur (c :: rest) = parseFieldsAux ins (c :: cur) rest := by
  rw [parseFieldsAux.eq_def]
  simp [h1, h2]

theorem pfa_in_ord (cur rest : List Char) (c : Char) (h : c ≠ '\"') :
    parseFieldsAux true cur (c :: rest) = parseFieldsAux true (c :: cur) rest := by
  by_cases hc : c = ','
  · subst hc; exact pfa_comma_in cur rest
  · exact pfa_other true cur rest c h hc

/-- A field with no quote and no comma is consumed verbatim up to the next
separator. -/
theorem pfa_clean_append (f : List Char)
    (hf : ∀ c ∈ f, c ≠ '\"' ∧ c ≠ ',') :
    ∀ cur rest, parseFieldsAux false cur (f ++ ',' :: rest) =
      (cur.reverse ++ f) :: parseFieldsAux false [] rest := by
  induction f with
  | nil => intro cur rest; simpa using pfa_comma_out cur rest
  | cons c t ih =>
    intro cur rest
    have hc := hf c (List.mem_cons_self c t)
    have ht : ∀ c ∈ t, c ≠ '\"' ∧ c ≠ ',' :=
      fun x hx => hf x (List.mem_cons_of_mem c hx)
    rw [List.cons_append, pfa_other false cur _ c hc.1 hc.2, ih ht]
    simp

/-- Terminal version of `pfa_clean_append`: a clean field at the end of the
line. -/
theorem pfa_clean_end (f : List Char)
    (hf : ∀ c ∈ f, c ≠ '\"' ∧ c ≠ ',') :
    ∀ cur, parseFieldsAux false cur f = [cur.reverse ++ f] := by
  induction f with
  | nil => intro cur; simpa using pfa_nil false cur
  | cons c t ih =>
    intro cur
    have hc := hf c (List.mem_cons_self c t)
    have ht : ∀ c ∈ t, c ≠ '\"' ∧ c ≠ ',' :=
      fun x hx => hf x (List.mem_cons_of_mem c hx)
    rw [pfa_other false cur _ c hc.1 hc.2, ih ht]
    simp

/-- Inside a quoted region, the doubled body followed by the closing quote
and a separator is undoubled back to the raw field. -/
theorem pfa_doubleQ_append (f : List Char) :
    ∀ cur rest, parseFieldsAux true cur (doubleQ f ++ '\"' :: ',' :: rest) =
      (cur.reverse ++ f) :: parseFieldsAux false [] rest := by
  induction f with
  | nil =>
    intro cur rest
    rw [doubleQ, List.nil_append,
      pfa_quote_in_other cur _ ',' (by decide), pfa_comma_out]
    simp
  | cons c t ih =>
    intro cur rest
    by_cases hc : c = '\"'
    · subst hc
      rw [doubleQ_quote, List.cons_append, List.cons_append,
        pfa_quote_in_quote, ih]
      simp
    · rw [doubleQ_other t c hc, List.cons_append, pfa_in_ord _ _ c hc, ih]
      simp

/-- Terminal version of `pfa_doubleQ_append`. -/
theorem pfa_doubleQ_end (f : List Char) :
    ∀ cur, parseFieldsAux true cur (doubleQ f ++ ['\"']) =
      [cur.reverse ++ f] := by
  induction f with
  | nil =>
    intro cur
    rw [doubleQ, List.nil_append, pfa_quote_in_nil]
    simp
  | cons c t ih =>
    intro cur
    by_cases hc : c = '\"'
    · subst hc
      rw [doubleQ_quote, List.cons_append, List.cons_append,
        pfa_quote_in_quote, ih]
      simp
    · rw [doubleQ_other t c hc, List.cons_append, pfa_in_ord _ _ c hc, ih]
      simp

theorem needsQuote_false_clean {f : List Char} (h : needsQuote f = false) :
    ∀ c ∈ f, c ≠ '\"' ∧ c ≠ ',' := by
  intro c hc
  simp only [needsQuote, Bool.or_eq_false_iff] at h
  constructor
  · intro e; subst e
    have := h.2
    simp at this
    exact this hc
  · intro e; subst e
    have := h.1.1
    simp at this
    exact this hc

/-- Any escaped field followed by a separator parses back to the raw field
value. -/
theorem pfa_escape_append (f : List Char) (cur rest : List Char) :
    parseFieldsAux false cur (escapeCSVField f ++ ',' :: rest) =
      (cur.reverse ++ f) :: parseFieldsAux false [] rest := by
  unfold escapeCSVField
  by_cases h : needsQuote f
  · rw [if_pos h]
    rw [List.cons_append, List.append_assoc]
    rw [pfa_quote_out]
    exact pfa_doubleQ_append f cur rest
  · rw [if_neg h]
    exact pfa_clean_append f (needsQuote_false_clean (by simpa using h)) cur rest

/-- Terminal version of `pfa_escape_append`. -/
theorem pfa_escape_end (f : List Char) (cur : List Char) :
    parseFieldsAux false cur (escapeCSVField f) = [cur.reverse ++ f] := by
  unfold escapeCSVField
  by_cases h : needsQuote f
  · rw [if_pos h, pfa_quote_out]
    exact pfa_doubleQ_end f cur
  · rw [if_neg h]
    exact pfa_clean_end f (needsQuote_false_clean (by simpa using h)) cur

end BlogAutomate

namespace BlogAutomate

theorem natToCharsAux_acc : ∀ (fuel n : Nat) (acc : List Char),
    natToCharsAux fuel n acc = natToCharsAux fuel n [] ++ acc := by
  intro fuel
  induction fuel with
  | zero => intro n acc; simp [natToCharsAux]
  | succ f ih =>
    intro n acc
    by_cases h : n < 10
    · simp [natToCharsAux, h]
    · simp only [natToCharsAux, if_neg h]
      rw [ih (n / 10) (Nat.digitChar (n % 10) :: acc),
        ih (n / 10) [Nat.digitChar (n % 10)]]
      simp

theorem natToCharsAux_fuel : ∀ (n f1 f2 : Nat) (acc : List Char),
    n < f1 → n < f2 → natToCharsAux f1 n acc = natToCharsAux f2 n acc := by
  intro n
  induction n using Nat.strong_induction_on with
  | _ n ih =>
    intro f1 f2 acc h1 h2
    match f1, f2 with
    | g1 + 1, g2 + 1 =>
      by_cases h : n < 10
      · simp [natToCharsAux, h]
      · simp only [natToCharsAux, if_neg h]
        exact ih (n / 10) (Nat.div_lt_self (by omega) (by omega)) g1 g2 _
          (by omega) (by omega)

theorem natToChars_eq (n : Nat) :
    natToChars n = if n < 10 then [Nat.digitChar n]
      else natToChars (n / 10) ++ [Nat.digitChar (n % 10)] := by
  unfold natToChars
  by_cases h : n < 10
  · simp [natToCharsAux, h]
  · rw [if_neg h,
      show natToCharsAux (n + 1) n [] =
        natToCharsAux n (n / 10) [Nat.digitChar (n % 10)] from by
          simp [natToCharsAux, h],
      natToCharsAux_acc,
      natToCharsAux_fuel (n / 10) n (n / 10 + 1) []
        (by omega) (by omega)]

theorem digitChar_isDigit {n : Nat} (h : n < 10) :
    isDigitChar (Nat.digitChar n) = true := by
  interval_cases n <;> decide

theorem digitChar_val {n : Nat} (h : n < 10) :
    (Nat.digitChar n).toNat - 48 = n := by
  interval_cases n <;> decide

theorem natToChars_digits (n : Nat) :
    ∀ c ∈ natToChars n, isDigitChar c = true := by
  induction n using Nat.strong_induction_on with
  | _ n ih =>
    rw [natToChars_eq]
    by_cases h : n < 10
    · simp only [if_pos h]
      intro c hc
      rw [List.mem_singleton] at hc
      subst hc
      exact digitChar_isDigit h
    · simp only [if_neg h]
      intro c hc
      rcases List.mem_append.mp hc with h1 | h1
      · exact ih (n / 10) (Nat.div_lt_self (by omega) (by omega)) c h1
      · rw [List.mem_singleton] at h1
        subst h1
        exact digitChar_isDigit (Nat.mod_lt _ (by omega))

theorem natToChars_ne_nil (n : Nat) : natToChars n ≠ [] := by
  rw [natToChars_eq]
  by_cases h : n < 10
  · simp [h]
  · simp only [if_neg h]
    intro e
    exact absurd (List.append_eq_nil.mp e).2 (by simp)

theorem natToChars_foldl (n : Nat) :
    (natToChars n).foldl (fun a c => 10 * a + (c.toNat - 48)) 0 = n := by
  induction n using Nat.strong_induction_on with
  | _ n ih =>
    rw [natToChars_eq]
    by_cases h : n < 10
    · simp only [if_pos h, List.foldl_cons, List.foldl_nil]
      rw [Nat.mul_zero, Nat.zero_add, digitChar_val h]
    · simp only [if_neg h, List.foldl_append, List.foldl_cons, List.foldl_nil]
      rw [ih (n / 10) (Nat.div_lt_self (by omega) (by omega)),
        digitChar_val (Nat.mod_lt _ (by omega))]
      omega

theorem isDigit_not_ws {c : Char} (h : isDigitChar c = true) :
    isWsChar c = false := by
  simp only [isDigitChar, Bool.and_eq_true, decide_eq_true_eq] at h
  by_contra hw
  simp only [Bool.not_eq_false, isWsChar, Bool.or_eq_true, decide_eq_true_eq] at hw
  rcases hw with ((((e | e) | e) | e) | e) | e <;> subst e <;>
    revert h <;> decide

theorem isDigit_ne_minus {c : Char} (h : isDigitChar c = true) : c ≠ '-' := by
  intro e; subst e; revert h; decide

theorem isDigit_ne_plus {c : Char} (h : isDigitChar c = true) : c ≠ '+' := by
  intro e; subst e; revert h; decide

theorem jsParseInt10_natToChars (n : Nat) :
    jsParseInt10 (natToChars n) = some (Int.ofNat n) := by
  obtain ⟨c, t, e⟩ := List.exists_cons_of_ne_nil (natToChars_ne_nil n)
  have hds := natToChars_digits n
  have hc : isDigitChar c = true := hds c (e ▸ List.mem_cons_self c t)
  unfold jsParseInt10
  rw [e, List.dropWhile_cons, isDigit_not_ws hc]
  simp only [Bool.false_eq_true, if_false, List.head?_cons]
  have hm : ¬((some c = some '-') ∨ (some c = some '+')) := by
    rintro (h1 | h1) <;> rw [Option.some_inj] at h1
    · exact isDigit_ne_minus hc h1
    · exact isDigit_ne_plus hc h1
  rw [if_neg hm, if_neg (fun h1 => hm (Or.inl h1))]
  have htw : (c :: t).takeWhile isDigitChar = c :: t :=
    List.takeWhile_eq_self_iff.mpr (fun x hx => hds x (e ▸ hx))
  rw [htw, if_neg (by simp)]
  rw [← e, natToChars_foldl n]

theorem jsParseInt10_intToChars (n : Int) :
    jsParseInt10 (intToChars n) = some n := by
  by_cases h : n < 0
  · rw [intToChars, if_pos h]
    unfold jsParseInt10
    rw [List.dropWhile_cons, show isWsChar '-' = false from by decide]
    simp only [Bool.false_eq_true, if_false, List.head?_cons, List.tail_cons]
    simp only [true_or, if_true]
    rw [List.takeWhile_eq_self_iff.mpr (natToChars_digits _),
      if_neg (natToChars_ne_nil _)]
    rw [natToChars_foldl]
    have : -(Int.ofNat (-n).toNat) = n := by
      show -(((-n).toNat : Int)) = n
      omega
    rw [this]
  · rw [intToChars, if_neg h, jsParseInt10_natToChars]
    have : Int.ofNat n.toNat = n := by
      show ((n.toNat : Int)) = n
      omega
    rw [this]

end BlogAutomate

namespace BlogAutomate

theorem isDigit_clean {c : Char} (h : isDigitChar c = true) :
    c ≠ '\"' ∧ c ≠ ',' := by
  constructor <;> intro e <;> subst e <;> revert h <;> decide

theorem intToChars_clean (n : Int) :
    ∀ c ∈ intToChars n, c ≠ '\"' ∧ c ≠ ',' := by
  intro c hc
  unfold intToChars at hc
  by_cases h : n < 0
  · rw [if_pos h] at hc
    rcases List.mem_cons.mp hc with e | h1
    · subst e; exact ⟨by decide, by decide⟩
    · exact isDigit_clean (natToChars_digits _ c h1)
  · rw [if_neg h] at hc
    exact isDigit_clean (natToChars_digits _ c hc)

theorem idFieldChars_clean (id : Option Int) :
    ∀ c ∈ idFieldChars id, c ≠ '\"' ∧ c ≠ ',' := by
  intro c hc
  match id with
  | none => simp [idFieldChars] at hc
  | some n =>
    rw [show idFieldChars (some n) = if n = 0 then [] else intToChars n
      from rfl] at hc
    by_cases h : n = 0
    · rw [if_pos h] at hc; simp at hc
    · rw [if_neg h] at hc
      exact intToChars_clean n c hc

theorem cleanField_mem {l : List Char} (h : cleanField l = true) :
    ∀ c ∈ l, c ≠ '\"' ∧ c ≠ ',' := by
  intro c hc
  unfold cleanField at h
  rw [List.all_eq_true] at h
  have := h c hc
  simp only [Bool.and_eq_true, decide_eq_true_eq] at this
  exact ⟨this.1.2, this.1.1⟩

theorem pfa0_clean (f rest : List Char) (hf : ∀ c ∈ f, c ≠ '\"' ∧ c ≠ ',') :
    parseFieldsAux false [] (f ++ ',' :: rest) =
      f :: parseFieldsAux false [] rest := by
  simpa using pfa_clean_append f hf [] rest

theorem pfa0_escape (f rest : List Char) :
    parseFieldsAux false [] (escapeCSVField f ++ ',' :: rest) =
      f :: parseFieldsAux false [] rest := by
  simpa using pfa_escape_append f [] rest

theorem pfa0_clean_end (f : List Char) (hf : ∀ c ∈ f, c ≠ '\"' ∧ c ≠ ',') :
    parseFieldsAux false [] f = [f] := by
  simpa using pfa_clean_end f hf []

/-- Splitting a serialized article line recovers the nine raw column values,
provided the three verbatim string columns are clean. -/
theorem splitCSVFields_serialize (a : ArticleData)
    (hcat : cleanField a.category_id.data = true)
    (hslug : cleanField a.slug.data = true)
    (hstat : cleanField a.status.data = true) :
    splitCSVFields (serializeArticleL a) =
      [idFieldChars a.id, a.category_id.data, a.title.data, a.body.data,
       a.slug.data, a.status.data, a.meta_title.data,
       a.meta_description.data, [if a.api_posted then '1' else '0']] := by
  unfold splitCSVFields serializeArticleL
  simp only [List.cons_append, List.append_assoc]
  rw [pfa0_clean _ _ (idFieldChars_clean a.id),
    pfa0_clean _ _ (cleanField_mem hcat),
    pfa0_escape, pfa0_escape,
    pfa0_clean _ _ (cleanField_mem hslug),
    pfa0_clean _ _ (cleanField_mem hstat),
    pfa0_escape, pfa0_escape,
    pfa0_clean_end]
  intro c hc
  rw [List.mem_singleton] at hc
  subst hc
  by_cases h : a.api_posted <;> simp [h] <;> decide

theorem string_mk_data (s : String) : (⟨s.data⟩ : String) = s := rfl

theorem data_ne_nil {s : String} (h : s ≠ "") : s.data ≠ [] := by
  intro e
  apply h
  obtain ⟨l⟩ := s
  have : l = [] := e
  subst this
  rfl

theorem intToChars_ne_nil (n : Int) : intToChars n ≠ [] := by
  unfold intToChars
  by_cases h : n < 0
  · simp [h]
  · simp [h, natToChars_ne_nil]

/-- The id column written by the store parses back to the original id when
the id is not the unserializable `some 0`. -/
theorem idField_roundtrip (id : Option Int) (hid : id ≠ some 0) :
    (if idFieldChars id = [] then none else jsParseInt10 (idFieldChars id)) =
      id := by
  match id with
  | none => simp [idFieldChars]
  | some n =>
    have hn : n ≠ 0 := fun e => hid (by rw [e])
    rw [show idFieldChars (some n) = if n = 0 then [] else intToChars n
      from rfl, if_neg hn, if_neg (intToChars_ne_nil n),
      jsParseInt10_intToChars]

theorem api_field_roundtrip (ap : Bool) :
    (decide (([if ap then '1' else '0'] : List Char) = ['1'])) = ap := by
  cases ap <;> decide

/-- Parsing a serialized well-formed article line recovers the record. -/
theorem parseCSVLineL_serialize (a : ArticleData) (h : WFArticle a = true) :
    parseCSVLineL (serializeArticleL a) = a := by
  unfold WFArticle at h
  simp only [Bool.and_eq_true, decide_eq_true_eq] at h
  obtain ⟨⟨⟨⟨hid, hcat⟩, hslug⟩, hstat⟩, hne⟩ := h
  unfold parseCSVLineL
  rw [splitCSVFields_serialize a hcat hslug hstat]
  simp only [List.getD_cons_zero, List.getD_cons_succ]
  rw [idField_roundtrip a.id hid, if_neg (data_ne_nil hne),
    api_field_roundtrip]

end BlogAutomate

namespace BlogAutomate

/-- Every decomposition of `l` at a newline has an odd number of quotes
before the newline (so the record joiner never splits `l` there). -/
def NlOdd (l : List Char) : Prop :=
  ∀ u v, l = u ++ '\n' :: v → countQ u % 2 = 1

/-- A block of a serialized line: even quote count, and newlines occur only
at odd quote depth. -/
def GoodBlock (l : List Char) : Prop := countQ l % 2 = 0 ∧ NlOdd l

theorem countQ_append (a b : List Char) :
    countQ (a ++ b) = countQ a + countQ b := List.count_append _ _ _

theorem countQ_cons (c : Char) (l : List Char) :
    countQ (c :: l) = countQ l + if c = '\"' then 1 else 0 := by
  by_cases h : c = '\"'
  · subst h; simp [countQ, List.count_cons]
  · simp [countQ, List.count_cons, h]

theorem countQ_doubleQ (f : List Char) : countQ (doubleQ f) = 2 * countQ f := by
  induction f with
  | nil => simp [doubleQ, countQ]
  | cons c t ih =>
    by_cases h : c = '\"'
    · subst h
      rw [doubleQ_quote, countQ_cons, countQ_cons, ih, countQ_cons]
      omega
    · rw [doubleQ_other t c h, countQ_cons, ih, countQ_cons]
      simp only [if_neg h]
      omega

theorem countQ_of_no_quote {l : List Char} (h : '\"' ∉ l) : countQ l = 0 :=
  List.count_eq_zero.mpr h

theorem cleanField_no_quote {l : List Char} (h : cleanField l = true) :
    '\"' ∉ l := by
  intro hm
  exact (cleanField_mem h '\"' hm).1 rfl

theorem cleanField_no_nl {l : List Char} (h : cleanField l = true) :
    '\n' ∉ l := by
  intro hm
  unfold cleanField at h
  rw [List.all_eq_true] at h
  have := h '\n' hm
  simp at this

theorem cleanField_no_comma {l : List Char} (h : cleanField l = true) :
    ',' ∉ l := by
  intro hm
  exact (cleanField_mem h ',' hm).2 rfl

theorem NlOdd_of_no_nl {l : List Char} (h : '\n' ∉ l) : NlOdd l := by
  intro u v e
  exact absurd (e ▸ List.mem_append.mpr (Or.inr (List.mem_cons_self _ _))) h

theorem GoodBlock_clean {l : List Char} (h : cleanField l = true) :
    GoodBlock l :=
  ⟨by rw [countQ_of_no_quote (cleanField_no_quote h)],
   NlOdd_of_no_nl (cleanField_no_nl h)⟩

theorem doubleQ_split_even (f : List Char) :
    ∀ u v, doubleQ f = u ++ '\n' :: v → countQ u % 2 = 0 := by
  induction f with
  | nil =>
    intro u v e
    rw [doubleQ] at e
    exact absurd e.symm (List.append_ne_nil_of_right_ne_nil u (by simp))
  | cons c t ih =>
    intro u v e
    by_cases h : c = '\"'
    · subst h
      rw [doubleQ_quote] at e
      rcases u with _ | ⟨x1, u1⟩
      · rw [List.nil_append] at e
        injection e with h1 _
        exact absurd h1.symm (by decide)
      · rw [List.cons_append] at e
        injection e with h1 e2
        subst h1
        rcases u1 with _ | ⟨x2, u2⟩
        · rw [List.nil_append] at e2
          injection e2 with h2 _
          exact absurd h2.symm (by decide)
        · rw [List.cons_append] at e2
          injection e2 with h2 e3
          subst h2
          have := ih u2 v e3
          rw [countQ_cons, countQ_cons]
          omega
    · rw [doubleQ_other t c h] at e
      rcases u with _ | ⟨x1, u1⟩
      · simp [countQ]
      · rw [List.cons_append] at e
        injection e with h1 e2
        subst h1
        have := ih u1 v e2
        rw [countQ_cons, if_neg h]
        omega

theorem GoodBlock_escape (f : List Char) : GoodBlock (escapeCSVField f) := by
  unfold escapeCSVField
  by_cases h : needsQuote f
  · rw [if_pos h]
    constructor
    · rw [countQ_cons, countQ_append, countQ_doubleQ]
      simp [countQ]
      omega
    · intro u v e
      rcases u with _ | ⟨x1, u1⟩
      · rw [List.nil_append] at e
        injection e with h1 _
        exact absurd h1.symm (by decide)
      · rw [List.cons_append] at e
        injection e with h1 e2
        subst h1
        rcases List.append_eq_append_iff.mp e2 with ⟨a', _, ha2⟩ | ⟨c', hc1, hc2⟩
        · exfalso
          have : ('\n' : Char) ∈ ['\"'] := by
            rw [ha2]
            exact List.mem_append.mpr (Or.inr (List.mem_cons_self _ _))
          simp at this
        · rcases c' with _ | ⟨x2, c''⟩
          · exfalso
            rw [List.nil_append] at hc2
            injection hc2 with h2 _
            exact absurd h2 (by decide)
          · rw [List.cons_append] at hc2
            injection hc2 with h2 hc3
            subst h2
            have := doubleQ_split_even f u1 c'' hc1
            rw [countQ_cons]
            simp only [if_pos]
            omega
  · rw [if_neg h]
    rw [Bool.not_eq_true] at h
    simp only [needsQuote, Bool.or_eq_false_iff] at h
    have hq : '\"' ∉ f := by
      have := h.2; simp at this; exact this
    have hn : '\n' ∉ f := by
      have := h.1.2; simp at this; exact this
    exact ⟨by rw [countQ_of_no_quote hq], NlOdd_of_no_nl hn⟩

/-- Prepending a good block and a comma separator preserves goodness. -/
theorem GoodBlock_field_append {f r : List Char}
    (hf : GoodBlock f) (hr : GoodBlock r) : GoodBlock (f ++ ',' :: r) := by
  constructor
  · rw [countQ_append, countQ_cons, if_neg (by decide)]
    have h1 := hf.1
    have h2 := hr.1
    omega
  · intro u v e
    rcases List.append_eq_append_iff.mp e with ⟨a', ha1, ha2⟩ | ⟨c', hc1, hc2⟩
    · rcases a' with _ | ⟨x, a''⟩
      · exfalso
        rw [List.nil_append] at ha2
        injection ha2 with h1 _
        exact absurd h1 (by decide)
      · rw [List.cons_append] at ha2
        injection ha2 with h1 hr2
        subst h1
        have hodd := hr.2 a'' v hr2
        subst ha1
        rw [countQ_append, countQ_cons, if_neg (by decide)]
        have := hf.1
        omega
    · rcases c' with _ | ⟨x, c''⟩
      · exfalso
        rw [List.nil_append] at hc2
        injection hc2 with h1 _
        exact absurd h1 (by decide)
      · rw [List.cons_append] at hc2
        injection hc2 with h1 _
        subst h1
        exact hf.2 u c'' hc1

end BlogAutomate

namespace BlogAutomate

/-- The serialized lines of a nonempty record list joined by single newlines
(the trimmed body of the article file). -/
def joinedLines : List ArticleData → List Char
  | [] => []
  | [r] => serializeArticleL r
  | r :: rest => serializeArticleL r ++ '\n' :: joinedLines rest

theorem splitNl_ne_nil (l : List Char) : splitNl l ≠ [] := by
  induction l with
  | nil => simp [splitNl]
  | cons c t ih =>
    by_cases h : c = '\n'
    · simp [splitNl, h]
    · simp only [splitNl, if_neg h]
      rcases e : splitNl t with _ | ⟨s, ss⟩
      · simp
      · simp

theorem splitNl_no_nl {l : List Char} (h : '\n' ∉ l) : splitNl l = [l] := by
  induction l with
  | nil => rfl
  | cons c t ih =>
    have hc : c ≠ '\n' := fun e => h (e ▸ List.mem_cons_self c t)
    have ht : '\n' ∉ t := fun hm => h (List.mem_cons_of_mem c hm)
    simp only [splitNl, if_neg hc, ih ht]

theorem splitNl_append (a b : List Char) :
    splitNl (a ++ '\n' :: b) = splitNl a ++ splitNl b := by
  induction a with
  | nil => simp [splitNl]
  | cons c t ih =>
    by_cases h : c = '\n'
    · subst h
      simp [splitNl, ih]
    · rw [List.cons_append]
      simp only [splitNl, if_neg h, ih]
      obtain ⟨s, ss, e⟩ := List.exists_cons_of_ne_nil (splitNl_ne_nil t)
      rw [e]
      simp

theorem exists_nl_split {b : List Char} (h : '\n' ∈ b) :
    ∃ b1 b2, b = b1 ++ '\n' :: b2 ∧ '\n' ∉ b1 := by
  induction b with
  | nil => simp at h
  | cons c t ih =>
    by_cases hc : c = '\n'
    · subst hc
      exact ⟨[], t, rfl, by simp⟩
    · have h2 : '\n' ∈ t := by
        rcases List.mem_cons.mp h with e | h1
        · exact absurd e.symm hc
        · exact h1
      obtain ⟨b1, b2, e, hn⟩ := ih h2
      refine ⟨c :: b1, b2, by rw [e, List.cons_append], ?_⟩
      intro hm
      rcases List.mem_cons.mp hm with e2 | h3
      · exact hc e2.symm
      · exact hn h3

theorem jla_nil_cur : joinLinesAux [] [] = ([] : List (List Char)) := by
  simp [joinLinesAux]

theorem jla_cons_nilcur_even (p : List Char) (ps : List (List Char))
    (h : countQ p % 2 = 0) :
    joinLinesAux [] (p :: ps) = p :: joinLinesAux [] ps := by
  simp [joinLinesAux, h]

theorem jla_cons_nilcur_odd (p : List Char) (ps : List (List Char))
    (h : ¬ countQ p % 2 = 0) :
    joinLinesAux [] (p :: ps) = joinLinesAux p ps := by
  simp [joinLinesAux, h]

theorem jla_cons_cur_even (cur p : List Char) (ps : List (List Char))
    (hcur : cur ≠ []) (h : countQ (cur ++ '\n' :: p) % 2 = 0) :
    joinLinesAux cur (p :: ps) =
      (cur ++ '\n' :: p) :: joinLinesAux [] ps := by
  simp only [joinLinesAux, if_neg hcur]
  rw [if_pos h]


theorem jla_cons_cur_odd (cur p : List Char) (ps : List (List Char))
    (hcur : cur ≠ []) (h : ¬ countQ (cur ++ '\n' :: p) % 2 = 0) :
    joinLinesAux cur (p :: ps) = joinLinesAux (cur ++ '\n' :: p) ps := by
  simp only [joinLinesAux, if_neg hcur]
  rw [if_neg h]

/-- Fuel-indexed core of the record-joiner correctness: a partially
accumulated record whose remaining body keeps every newline at odd quote
depth is reassembled in one piece. -/
theorem joins_aux : ∀ (n : Nat) (b : List Char), b.length ≤ n →
    ∀ cur, cur ≠ [] →
    countQ (cur ++ '\n' :: b) % 2 = 0 →
    (∀ u v, b = u ++ '\n' :: v → countQ (cur ++ '\n' :: u) % 2 = 1) →
    ∀ qs, joinLinesAux cur (splitNl b ++ qs) =
      (cur ++ '\n' :: b) :: joinLinesAux [] qs := by
  intro n
  induction n with
  | zero =>
    intro b hb cur hcur heven _ qs
    have : b = [] := List.length_eq_zero.mp (Nat.le_zero.mp hb)
    subst this
    rw [splitNl, List.cons_append, List.nil_append,
      jla_cons_cur_even cur [] qs hcur heven]
  | succ n ih =>
    intro b hb cur hcur heven hodd qs
    by_cases hn : '\n' ∈ b
    · obtain ⟨b1, b2, e, hb1⟩ := exists_nl_split hn
      subst e
      rw [splitNl_append, splitNl_no_nl hb1]
      simp only [List.cons_append, List.nil_append, List.append_assoc]
      have hoddb1 := hodd b1 b2 rfl
      rw [jla_cons_cur_odd cur b1 _ hcur (by omega)]
      have hlen : b2.length ≤ n := by
        have := hb
        simp [List.length_append] at this
        omega
      have hcur2 : cur ++ '\n' :: b1 ≠ [] :=
        List.append_ne_nil_of_right_ne_nil cur (by simp)
      have heven2 : countQ ((cur ++ '\n' :: b1) ++ '\n' :: b2) % 2 = 0 := by
        rw [List.append_assoc]
        simpa [List.cons_append] using heven
      have hodd2 : ∀ u v, b2 = u ++ '\n' :: v →
          countQ ((cur ++ '\n' :: b1) ++ '\n' :: u) % 2 = 1 := by
        intro u v e2
        rw [List.append_assoc]
        have := hodd (b1 ++ '\n' :: u) v (by rw [e2]; simp)
        simpa [List.cons_append] using this
      rw [ih b2 hlen (cur ++ '\n' :: b1) hcur2 heven2 hodd2 qs]
      simp
    · rw [splitNl_no_nl hn, List.cons_append, List.nil_append,
        jla_cons_cur_even cur b qs hcur heven]

/-- A record whose quote count is even and whose internal newlines all sit at
odd quote depth is reassembled exactly by the record joiner. -/
theorem joins_record (rec : List Char) (heven : countQ rec % 2 = 0)
    (hodd : NlOdd rec) (qs : List (List Char)) :
    joinLinesAux [] (splitNl rec ++ qs) = rec :: joinLinesAux [] qs := by
  by_cases hn : '\n' ∈ rec
  · obtain ⟨r1, r2, e, hr1⟩ := exists_nl_split hn
    subst e
    rw [splitNl_append, splitNl_no_nl hr1]
    simp only [List.cons_append, List.nil_append, List.append_assoc]
    have hodd1 := hodd r1 r2 rfl
    rw [jla_cons_nilcur_odd r1 _ (by omega)]
    have hr1ne : r1 ≠ [] := by
      intro e2
      subst e2
      rw [countQ] at hodd1
      simp at hodd1
    exact joins_aux r2.length r2 le_rfl r1 hr1ne heven
      (fun u v e2 => hodd (r1 ++ '\n' :: u) v (by rw [e2]; simp))
      qs
  · rw [splitNl_no_nl hn, List.cons_append, List.nil_append,
      jla_cons_nilcur_even rec qs heven]

end BlogAutomate

namespace BlogAutomate

theorem cleanField_intToChars (n : Int) : cleanField (intToChars n) = true := by
  unfold cleanField
  rw [List.all_eq_true]
  intro c hc
  have h3 : isDigitChar c = true ∨ c = '-' := by
    unfold intToChars at hc
    by_cases h : n < 0
    · rw [if_pos h] at hc
      rcases List.mem_cons.mp hc with e | h1
      · exact Or.inr e
      · exact Or.inl (natToChars_digits _ c h1)
    · rw [if_neg h] at hc
      exact Or.inl (natToChars_digits _ c hc)
  rcases h3 with h3 | h3
  · have h4 := isDigit_clean h3
    have h5 : c ≠ '\n' := fun e => by subst e; revert h3; decide
    simp [h4.1, h4.2, h5]
  · subst h3; decide

theorem cleanField_idFieldChars (id : Option Int) :
    cleanField (idFieldChars id) = true := by
  match id with
  | none => rfl
  | some n =>
    rw [show idFieldChars (some n) = if n = 0 then [] else intToChars n from rfl]
    by_cases h : n = 0
    · rw [if_pos h]; rfl
    · rw [if_neg h]; exact cleanField_intToChars n

theorem cleanField_api (b : Bool) :
    cleanField [if b then '1' else '0'] = true := by
  cases b <;> decide

/-- The right-nested normal form of a serialized line. -/
theorem serialize_normal (a : ArticleData) :
    serializeArticleL a =
      idFieldChars a.id ++ ',' ::
        (a.category_id.data ++ ',' ::
          (escapeCSVField a.title.data ++ ',' ::
            (escapeCSVField a.body.data ++ ',' ::
              (a.slug.data ++ ',' ::
                (a.status.data ++ ',' ::
                  (escapeCSVField a.meta_title.data ++ ',' ::
                    (escapeCSVField a.meta_description.data ++ ',' ::
                      [if a.api_posted then '1' else '0']))))))) := by
  simp [serializeArticleL, List.cons_append, List.append_assoc]

/-- A well-formed serialized line is a good block: its quote count is even
and internal newlines sit at odd quote depth. -/
theorem GoodBlock_serialize (a : ArticleData)
    (hcat : cleanField a.category_id.data = true)
    (hslug : cleanField a.slug.data = true)
    (hstat : cleanField a.status.data = true) :
    GoodBlock (serializeArticleL a) := by
  rw [serialize_normal a]
  refine GoodBlock_field_append (GoodBlock_clean (cleanField_idFieldChars a.id)) ?_
  refine GoodBlock_field_append (GoodBlock_clean hcat) ?_
  refine GoodBlock_field_append (GoodBlock_escape _) ?_
  refine GoodBlock_field_append (GoodBlock_escape _) ?_
  refine GoodBlock_field_append (GoodBlock_clean hslug) ?_
  refine GoodBlock_field_append (GoodBlock_clean hstat) ?_
  refine GoodBlock_field_append (GoodBlock_escape _) ?_
  refine GoodBlock_field_append (GoodBlock_escape _) ?_
  exact GoodBlock_clean (cleanField_api a.api_posted)

/-- A serialized line ends in its api_posted character. -/
theorem serialize_concat (a : ArticleData) :
    ∃ Y, serializeArticleL a = Y ++ [if a.api_posted then '1' else '0'] := by
  refine ⟨idFieldChars a.id ++ ',' :: a.category_id.data ++
    ',' :: escapeCSVField a.title.data ++ ',' :: escapeCSVField a.body.data ++
    ',' :: a.slug.data ++ ',' :: a.status.data ++
    ',' :: escapeCSVField a.meta_title.data ++
    ',' :: escapeCSVField a.meta_description.data ++ [','], ?_⟩
  simp [serializeArticleL, List.cons_append, List.append_assoc]

theorem isWs_api (b : Bool) : isWsChar (if b then '1' else '0') = false := by
  cases b <;> decide

/-- The joined body of a nonempty record list ends in a non-whitespace
character. -/
theorem joined_concat (rs : List ArticleData) (h : rs ≠ []) :
    ∃ Y c, joinedLines rs = Y ++ [c] ∧ isWsChar c = false := by
  induction rs with
  | nil => exact absurd rfl h
  | cons r rest ih =>
    match rest with
    | [] =>
      obtain ⟨Y, e⟩ := serialize_concat r
      exact ⟨Y, _, e, isWs_api r.api_posted⟩
    | r2 :: rest2 =>
      obtain ⟨Y, c, e, hc⟩ := ih (by simp)
      refine ⟨serializeArticleL r ++ '\n' :: Y, c, ?_, hc⟩
      rw [show joinedLines (r :: r2 :: rest2) =
        serializeArticleL r ++ '\n' :: joinedLines (r2 :: rest2) from rfl, e]
      simp

theorem serializeAll_eq (rs : List ArticleData) (h : rs ≠ []) :
    serializeAll rs = joinedLines rs ++ ['\n'] := by
  induction rs with
  | nil => exact absurd rfl h
  | cons r rest ih =>
    match rest with
    | [] => simp [serializeAll, joinedLines]
    | r2 :: rest2 =>
      rw [show serializeAll (r :: r2 :: rest2) =
        serializeArticleL r ++ '\n' :: serializeAll (r2 :: rest2) from rfl,
        ih (by simp),
        show joinedLines (r :: r2 :: rest2) =
        serializeArticleL r ++ '\n' :: joinedLines (r2 :: rest2) from rfl]
      simp

theorem headerChars_cons :
    headerChars = 'i' ::
      "d,category_id,title,body,slug,status,meta_title,meta_description,api_posted".data := by
  rfl

theorem header_no_nl : ('\n' : Char) ∉ headerChars := by decide

/-- Trimming the rendered article file strips exactly the final newline. -/
theorem jsTrim_file (J : List Char)
    (hconcat : ∃ Y c, J = Y ++ [c] ∧ isWsChar c = false) :
    jsTrim (headerChars ++ '\n' :: (J ++ ['\n'])) =
      headerChars ++ '\n' :: J := by
  obtain ⟨Y, c, e, hc⟩ := hconcat
  subst e
  unfold jsTrim
  have h1 : (headerChars ++ '\n' :: ((Y ++ [c]) ++ ['\n'])).dropWhile isWsChar =
      headerChars ++ '\n' :: ((Y ++ [c]) ++ ['\n']) := by
    rw [headerChars_cons, List.cons_append, List.dropWhile_cons,
      show isWsChar 'i' = false from by decide]
    simp
  rw [h1]
  have h2 : (headerChars ++ '\n' :: ((Y ++ [c]) ++ ['\n'])).reverse =
      '\n' :: c :: (Y.reverse ++ '\n' :: headerChars.reverse) := by
    simp [List.reverse_append]
  rw [h2, List.dropWhile_cons, show isWsChar '\n' = true from by decide]
  simp only [if_true]
  rw [List.dropWhile_cons, hc]
  simp only [Bool.false_eq_true, if_false]
  simp [List.reverse_append]

end BlogAutomate

namespace BlogAutomate

theorem WF_parts {a : ArticleData} (h : WFArticle a = true) :
    a.id ≠ some 0 ∧ cleanField a.category_id.data = true ∧
    cleanField a.slug.data = true ∧ cleanField a.status.data = true ∧
    a.status ≠ "" := by
  unfold WFArticle at h
  simp only [Bool.and_eq_true, decide_eq_true_eq] at h
  exact ⟨h.1.1.1.1, h.1.1.1.2, h.1.1.2, h.1.2, h.2⟩

/-- The record joiner splits the joined body of well-formed records back into
the individual serialized lines. -/
theorem join_all (rs : List ArticleData)
    (h : ∀ a ∈ rs, WFArticle a = true) (hne : rs ≠ []) :
    joinLinesAux [] (splitNl (joinedLines rs)) = rs.map serializeArticleL := by
  induction rs with
  | nil => exact absurd rfl hne
  | cons r rest ih =>
    obtain ⟨_, hcat, hslug, hstat, _⟩ := WF_parts (h r (List.mem_cons_self r rest))
    have hgb := GoodBlock_serialize r hcat hslug hstat
    match rest with
    | [] =>
      rw [show joinedLines [r] = serializeArticleL r from rfl,
        ← List.append_nil (splitNl (serializeArticleL r)),
        joins_record _ hgb.1 hgb.2 [], jla_nil_cur]
      rfl
    | r2 :: rest2 =>
      rw [show joinedLines (r :: r2 :: rest2) =
          serializeArticleL r ++ '\n' :: joinedLines (r2 :: rest2) from rfl,
        splitNl_append, joins_record _ hgb.1 hgb.2 _,
        ih (fun a ha => h a (List.mem_cons_of_mem r ha)) (by simp)]
      rfl

/-- Reading back the file the store writes for a list of well-formed records
returns exactly those records. -/
theorem read_articlesFileL (rs : List ArticleData)
    (h : ∀ a ∈ rs, WFArticle a = true) :
    readArticlesFromCSVL (articlesFileL rs) = rs := by
  match rs with
  | [] => decide
  | r :: rest =>
    unfold articlesFileL
    rw [serializeAll_eq _ (by simp)]
    unfold readArticlesFromCSVL
    rw [jsTrim_file _ (joined_concat _ (by simp)), splitNl_append,
      splitNl_no_nl header_no_nl, List.singleton_append]
    have hlen : ¬ (headerChars :: splitNl (joinedLines (r :: rest))).length ≤ 1 := by
      have h1 := splitNl_ne_nil (joinedLines (r :: rest))
      have h2 := List.length_pos.mpr h1
      simp only [List.length_cons]
      omega
    rw [if_neg hlen, List.tail_cons, join_all _ h (by simp), List.map_map]
    have : ∀ a ∈ r :: rest,
        (parseCSVLineL ∘ serializeArticleL) a = a := by
      intro a ha
      exact parseCSVLineL_serialize a (h a ha)
    rw [List.map_congr_left this]
    simp

end BlogAutomate

namespace BlogAutomate

/-- A concrete well-formed record whose title, body and meta fields contain
embedded commas, double quotes and newlines. -/
def specialRec : ArticleData :=
  ⟨some 1, "2", "Title, with comma", "line1\n\"quoted\", text\nline3",
    "slug-a", "draft", "meta,title", "m\"d", true⟩

/-- A second concrete well-formed record. -/
def plainRec : ArticleData :=
  ⟨some 2, "3", "plain", "body text", "s2", "published", "", "md", false⟩

/-- C1: for every well-formed article file, reading all records with
`readArticlesFromCSV`, re-serializing every record with the store's
serializer (header plus one serialized line per record) and reading again
yields the same sequence of records, including records whose bodies and
titles contain embedded commas, double quotes and newlines. -/
theorem C1_readAll_reserialize_roundtrip (rs : List ArticleData)
    (h : ∀ a ∈ rs, WFArticle a = true) :
    readArticlesFromCSV (articlesFile rs) = rs ∧
    readArticlesFromCSV
        (articlesFile (readArticlesFromCSV (articlesFile rs))) =
      readArticlesFromCSV (articlesFile rs) := by
  have h1 : readArticlesFromCSV (articlesFile rs) = rs := read_articlesFileL rs h
  refine ⟨h1, ?_⟩
  rw [h1]
  exact h1

/-- Witness for C1 at a two-record store whose fields contain embedded
commas, quotes and newlines. -/
theorem C1_witness :
    (∀ a ∈ [specialRec, plainRec], WFArticle a = true) ∧
    (readArticlesFromCSV (articlesFile [specialRec, plainRec]) =
        [specialRec, plainRec] ∧
     readArticlesFromCSV (articlesFile (readArticlesFromCSV
         (articlesFile [specialRec, plainRec]))) =
       readArticlesFromCSV (articlesFile [specialRec, plainRec])) :=
  ⟨by decide, C1_readAll_reserialize_roundtrip [specialRec, plainRec] (by decide)⟩

/-- The observable file state after an update call: the store is rewritten
only on the success path; the `throw` happens before any write. -/
def fileAfterUpdateStr (file : Option String) (articleId : Int)
    (u : ArticleUpdate) : Option String :=
  match updateArticleInCSV file articleId u with
  | .ok c => some c
  | .error _ => file

/-- C3: updating an identifier that is not present in the article file fails
with the NotFound error and leaves the file byte-for-byte unchanged. -/
theorem C3_update_notfound (file : String) (tid : Int) (u : ArticleUpdate)
    (h : ∀ a ∈ readArticlesFromCSV file, a.id ≠ some tid) :
    updateArticleInCSV (some file) tid u =
      Except.error ("Article with id " ++ (⟨intToChars tid⟩ : String) ++
        " not found in CSV") ∧
    fileAfterUpdateStr (some file) tid u = some file := by
  have hf : (readFromStore (some file.data)).findIdx?
      (fun a => a.id = some tid) = none := by
    rw [List.findIdx?_eq_none_iff]
    intro x hx
    have hx2 : x ∈ readArticlesFromCSV file := hx
    simpa using h x hx2
  have h1 : updateArticleInCSV (some file) tid u =
      Except.error ("Article with id " ++ (⟨intToChars tid⟩ : String) ++
        " not found in CSV") := by
    show (updateArticleInCSVL (some file.data) tid u).map
      (fun c => (⟨c⟩ : String)) = _
    unfold updateArticleInCSVL
    simp only [hf]
    rfl
  refine ⟨h1, ?_⟩
  unfold fileAfterUpdateStr
  rw [h1]

/-- Witness for C3: updating id 99 in a one-record store fails and leaves
the store untouched. -/
theorem C3_witness :
    (∀ a ∈ readArticlesFromCSV (articlesFile [plainRec]), a.id ≠ some 99) ∧
    (updateArticleInCSV (some (articlesFile [plainRec])) 99 noUpdate =
      Except.error ("Article with id " ++ (⟨intToChars 99⟩ : String) ++
        " not found in CSV") ∧
    fileAfterUpdateStr (some (articlesFile [plainRec])) 99 noUpdate =
      some (articlesFile [plainRec])) :=
  ⟨by decide, C3_update_notfound (articlesFile [plainRec]) 99 noUpdate (by decide)⟩

theorem maxFold_cons (r : ArticleData) (t : List ArticleData) (m : Int) :
    maxFold (r :: t) m = maxFold t
      (match r.id with
       | some n => if n ≠ 0 ∧ m < n then n else m
       | none => m) := by
  simp [maxFold]

theorem maxFold_ge (rs : List ArticleData) : ∀ m : Int, m ≤ maxFold rs m := by
  induction rs with
  | nil => intro m; simp [maxFold]
  | cons r t ih =>
    intro m
    rw [maxFold_cons]
    refine le_trans ?_ (ih _)
    match hid : r.id with
    | none => simp
    | some n =>
      show m ≤ if n ≠ 0 ∧ m < n then n else m
      by_cases hc : n ≠ 0 ∧ m < n
      · rw [if_pos hc]; exact le_of_lt hc.2
      · rw [if_neg hc]

theorem maxFold_ub (rs : List ArticleData) : ∀ m : Int, ∀ b ∈ rs,
    ∀ n : Int, b.id = some n → 0 < n → n ≤ maxFold rs m := by
  induction rs with
  | nil => intro m b hb; simp at hb
  | cons r t ih =>
    intro m b hb n hbn hpos
    rw [maxFold_cons]
    rcases List.mem_cons.mp hb with e | hbt
    · subst e
      rw [hbn]
      have step : n ≤ (if n ≠ 0 ∧ m < n then n else m) := by
        by_cases hc : n ≠ 0 ∧ m < n
        · rw [if_pos hc]
        · rw [if_neg hc]
          push_neg at hc
          exact hc (by omega)
      exact le_trans step (maxFold_ge t _)
    · exact ih _ b hbt n hbn hpos

theorem maxFold_mem (rs : List ArticleData) : ∀ m : Int,
    maxFold rs m = m ∨ ∃ b ∈ rs, b.id = some (maxFold rs m) := by
  induction rs with
  | nil => intro m; left; simp [maxFold]
  | cons r t ih =>
    intro m
    rw [maxFold_cons]
    match hid : r.id with
    | none =>
      rcases ih m with h1 | ⟨b, hb, hbid⟩
      · left; exact h1
      · right; exact ⟨b, List.mem_cons_of_mem r hb, hbid⟩
    | some n =>
      show maxFold t (if n ≠ 0 ∧ m < n then n else m) = m ∨
        ∃ b ∈ r :: t, b.id = some (maxFold t (if n ≠ 0 ∧ m < n then n else m))
      by_cases hc : n ≠ 0 ∧ m < n
      · rw [if_pos hc]
        rcases ih n with h1 | ⟨b, hb, hbid⟩
        · right
          exact ⟨r, List.mem_cons_self r t, by rw [hid, h1]⟩
        · right; exact ⟨b, List.mem_cons_of_mem r hb, hbid⟩
      · rw [if_neg hc]
        rcases ih m with h1 | ⟨b, hb, hbid⟩
        · left; exact h1
        · right; exact ⟨b, List.mem_cons_of_mem r hb, hbid⟩

/-- C5: appending a record without an identifier assigns id 1 on an empty
store (missing file or header-only file) and `max(existing ids) + 1`
otherwise; the returned record carries the assigned identifier, which is
strictly greater than every identifier ever present, so deleted or skipped
identifiers are never reused. -/
theorem C5_append_assigns_next_id (a : ArticleData) (ha : a.id = none) :
    (appendArticleToCSV none a).1 = { a with id := some 1 } ∧
    (appendArticleToCSV (some (articlesFile [])) a).1 = { a with id := some 1 } ∧
    (∀ rs : List ArticleData, rs ≠ [] →
      (∀ b ∈ rs, WFArticle b = true) →
      (∀ b ∈ rs, ∃ n : Int, b.id = some n ∧ 0 < n) →
      (appendArticleToCSV (some (articlesFile rs)) a).1 =
        { a with id := some (maxIdOf rs + 1) } ∧
      (∃ b ∈ rs, b.id = some (maxIdOf rs)) ∧
      (∀ b ∈ rs, ∀ n : Int, b.id = some n → n < maxIdOf rs + 1)) := by
  refine ⟨?_, ?_, ?_⟩
  · show (appendArticleToCSVL none a).1 = _
    simp [appendArticleToCSVL, ha, readFromStore, maxIdOf, maxFold]
  · show (appendArticleToCSVL (some (articlesFileL [])) a).1 = _
    have he : readFromStore (some (articlesFileL [])) = [] :=
      read_articlesFileL [] (by simp)
    simp [appendArticleToCSVL, ha, he, maxIdOf, maxFold]
  · intro rs hne hWF hpos
    have hread : readFromStore (some (articlesFileL rs)) = rs :=
      read_articlesFileL rs hWF
    refine ⟨?_, ?_, ?_⟩
    · show (appendArticleToCSVL (some (articlesFileL rs)) a).1 = _
      simp [appendArticleToCSVL, ha, hread]
    · rcases maxFold_mem rs 0 with h0 | hm
      · obtain ⟨b0, hb0⟩ := List.exists_mem_of_ne_nil rs hne
        obtain ⟨n0, hbn0, hpos0⟩ := hpos b0 hb0
        have := maxFold_ub rs 0 b0 hb0 n0 hbn0 hpos0
        rw [maxIdOf] at *
        omega
      · exact hm
    · intro b hb n hbn
      obtain ⟨n2, hbn2, hpos2⟩ := hpos b hb
      rw [hbn2] at hbn
      have : n2 = n := by injection hbn
      subst this
      have := maxFold_ub rs 0 b hb n2 hbn2 hpos2
      rw [maxIdOf]
      omega

/-- Witness for C5: a record with no id gets id 1 in an empty store and
id `maxIdOf+1` in a store holding ids 1 and 2, never reusing an id. -/
theorem C5_witness :
    ((⟨none, "3", "T", "B", "s", "draft", "", "", false⟩ : ArticleData).id =
      none) ∧
    ((appendArticleToCSV none
        ⟨none, "3", "T", "B", "s", "draft", "", "", false⟩).1 =
      { (⟨none, "3", "T", "B", "s", "draft", "", "", false⟩ : ArticleData)
        with id := some 1 } ∧
    ((appendArticleToCSV (some (articlesFile [specialRec, plainRec]))
        ⟨none, "3", "T", "B", "s", "draft", "", "", false⟩).1 =
      { (⟨none, "3", "T", "B", "s", "draft", "", "", false⟩ : ArticleData)
        with id := some (maxIdOf [specialRec, plainRec] + 1) } ∧
      (∃ b ∈ [specialRec, plainRec],
        b.id = some (maxIdOf [specialRec, plainRec])) ∧
      (∀ b ∈ [specialRec, plainRec], ∀ n : Int, b.id = some n →
        n < maxIdOf [specialRec, plainRec] + 1))) :=
  ⟨rfl,
   (C5_append_assigns_next_id _ rfl).1,
   (C5_append_assigns_next_id _ rfl).2.2 [specialRec, plainRec]
     (by decide) (by decide) (by decide)⟩

end BlogAutomate

namespace BlogAutomate

/-- An update whose present fields keep the record serializable: it does not
touch the id, and any new category_id / slug / status value is clean (with a
nonempty status). -/
def WFUpdate (u : ArticleUpdate) : Bool :=
  (u.id = none : Bool) &&
  u.category_id.all (fun s => cleanField s.data) &&
  u.slug.all (fun s => cleanField s.data) &&
  u.status.all (fun s => cleanField s.data && (s ≠ "" : Bool))

theorem WF_merge {a : ArticleData} {u : ArticleUpdate}
    (hWF : WFArticle a = true) (hu : WFUpdate u = true) :
    WFArticle (mergeArticle a u) = true := by
  obtain ⟨hid, hcat, hslug, hstat, hne⟩ := WF_parts hWF
  unfold WFUpdate at hu
  simp only [Bool.and_eq_true, decide_eq_true_eq] at hu
  obtain ⟨⟨⟨huid, hucat⟩, huslug⟩, hustat⟩ := hu
  unfold WFArticle
  simp only [Bool.and_eq_true, decide_eq_true_eq]
  refine ⟨⟨⟨⟨?_, ?_⟩, ?_⟩, ?_⟩, ?_⟩
  · simp only [mergeArticle, huid]
    exact hid
  · match hc : u.category_id with
    | none => simpa [mergeArticle, hc] using hcat
    | some s =>
      rw [hc] at hucat
      simpa [mergeArticle, hc] using hucat
  · match hc : u.slug with
    | none => simpa [mergeArticle, hc] using hslug
    | some s =>
      rw [hc] at huslug
      simpa [mergeArticle, hc] using huslug
  · match hc : u.status with
    | none => simpa [mergeArticle, hc] using hstat
    | some s =>
      rw [hc] at hustat
      simp only [Option.all_some, Bool.and_eq_true, decide_eq_true_eq] at hustat
      simpa [mergeArticle, hc] using hustat.1
  · match hc : u.status with
    | none => simpa [mergeArticle, hc] using hne
    | some s =>
      rw [hc] at hustat
      simp only [Option.all_some, Bool.and_eq_true, decide_eq_true_eq] at hustat
      simpa [mergeArticle, hc] using hustat.2

theorem findIdx_pre_aux (tid : Int) (a : ArticleData) (post : List ArticleData)
    (ha : a.id = some tid) :
    ∀ (pre : List ArticleData) (i : Nat), (∀ b ∈ pre, b.id ≠ some tid) →
    List.findIdx? (fun b => decide (b.id = some tid)) (pre ++ a :: post) i =
      some (i + pre.length) := by
  intro pre
  induction pre with
  | nil =>
    intro i _
    rw [List.nil_append, List.findIdx?_cons, if_pos (by simp [ha])]
    simp
  | cons p t ih =>
    intro i hp
    rw [List.cons_append, List.findIdx?_cons,
      if_neg (by simp [hp p (List.mem_cons_self p t)]),
      ih (i + 1) (fun b hb => hp b (List.mem_cons_of_mem p hb))]
    simp only [List.length_cons]
    congr 1
    omega

theorem getD_mid (a d : ArticleData) (post : List ArticleData) :
    ∀ pre : List ArticleData, (pre ++ a :: post).getD pre.length d = a := by
  intro pre
  induction pre with
  | nil => simp [List.getD]
  | cons p t ih => simpa [List.getD] using ih

theorem set_mid (a v : ArticleData) (post : List ArticleData)
    (pre : List ArticleData) :
    (pre ++ a :: post).set pre.length v = pre ++ v :: post := by
  rw [List.set_append, if_neg (by omega)]
  simp

/-- C4: updating an existing identifier with a set of partial fields changes
only the targeted fields of the targeted record: the rewritten file is the
original with just that record merged, re-reading it returns exactly that
list (every field of every other record, and the target's id, unchanged). -/
theorem C4_update_changes_only_target (pre post : List ArticleData)
    (a : ArticleData) (u : ArticleUpdate) (tid : Int)
    (hWF : ∀ b ∈ pre ++ a :: post, WFArticle b = true)
    (hid : a.id = some tid)
    (hpre : ∀ b ∈ pre, b.id ≠ some tid)
    (hu : WFUpdate u = true) :
    updateArticleInCSV (some (articlesFile (pre ++ a :: post))) tid u =
      Except.ok (articlesFile (pre ++ mergeArticle a u :: post)) ∧
    readArticlesFromCSV (articlesFile (pre ++ mergeArticle a u :: post)) =
      pre ++ mergeArticle a u :: post ∧
    (mergeArticle a u).id = a.id ∧
    (u.category_id = none → (mergeArticle a u).category_id = a.category_id) ∧
    (u.title = none → (mergeArticle a u).title = a.title) ∧
    (u.body = none → (mergeArticle a u).body = a.body) ∧
    (u.slug = none → (mergeArticle a u).slug = a.slug) ∧
    (u.status = none → (mergeArticle a u).status = a.status) ∧
    (u.meta_title = none → (mergeArticle a u).meta_title = a.meta_title) ∧
    (u.meta_description = none →
      (mergeArticle a u).meta_description = a.meta_description) ∧
    (u.api_posted = none → (mergeArticle a u).api_posted = a.api_posted) := by
  have hread : readFromStore (some (articlesFileL (pre ++ a :: post))) =
      pre ++ a :: post := read_articlesFileL _ hWF
  have huid : u.id = none := by
    unfold WFUpdate at hu
    simp only [Bool.and_eq_true, decide_eq_true_eq] at hu
    exact hu.1.1.1
  refine ⟨?_, ?_, ?_, ?_, ?_, ?_, ?_, ?_, ?_, ?_, ?_⟩
  · show (updateArticleInCSVL (some ((articlesFile (pre ++ a :: post)).data))
      tid u).map (fun c => (⟨c⟩ : String)) = _
    unfold updateArticleInCSVL
    simp only [show ((articlesFile (pre ++ a :: post)).data) =
      articlesFileL (pre ++ a :: post) from rfl, hread,
      findIdx_pre_aux tid a post hid pre 0 hpre]
    simp only [Nat.zero_add, getD_mid, set_mid]
    rfl
  · exact read_articlesFileL _ (by
      intro b hb
      rcases List.mem_append.mp hb with h1 | h1
      · exact hWF b (List.mem_append.mpr (Or.inl h1))
      · rcases List.mem_cons.mp h1 with e | h2
        · subst e
          exact WF_merge (hWF a (List.mem_append.mpr
            (Or.inr (List.mem_cons_self a post)))) hu
        · exact hWF b (List.mem_append.mpr (Or.inr (List.mem_cons_of_mem a h2))))
  · simp [mergeArticle, huid]
  · intro h; simp [mergeArticle, h]
  · intro h; simp [mergeArticle, h]
  · intro h; simp [mergeArticle, h]
  · intro h; simp [mergeArticle, h]
  · intro h; simp [mergeArticle, h]
  · intro h; simp [mergeArticle, h]
  · intro h; simp [mergeArticle, h]
  · intro h; simp [mergeArticle, h]

/-- The update applied in the C4 witness: set api_posted to true, touch
nothing else. -/
def apiTrueUpdate : ArticleUpdate :=
  ⟨none, none, none, none, none, none, none, none, some true⟩

/-- Witness for C4: in a two-record store, updating the record with id 2 to
api_posted = true rewrites only that record and re-reads intact. -/
theorem C4_witness :
    ((∀ b ∈ [specialRec] ++ plainRec :: [], WFArticle b = true) ∧
     plainRec.id = some 2 ∧
     (∀ b ∈ [specialRec], b.id ≠ some 2) ∧
     WFUpdate apiTrueUpdate = true) ∧
    (updateArticleInCSV (some (articlesFile ([specialRec] ++ plainRec :: [])))
        2 apiTrueUpdate =
      Except.ok (articlesFile
        ([specialRec] ++ mergeArticle plainRec apiTrueUpdate :: [])) ∧
    readArticlesFromCSV (articlesFile
        ([specialRec] ++ mergeArticle plainRec apiTrueUpdate :: [])) =
      [specialRec] ++ mergeArticle plainRec apiTrueUpdate :: [] ∧
    (mergeArticle plainRec apiTrueUpdate).id = plainRec.id ∧
    (apiTrueUpdate.category_id = none →
      (mergeArticle plainRec apiTrueUpdate).category_id = plainRec.category_id) ∧
    (apiTrueUpdate.title = none →
      (mergeArticle plainRec apiTrueUpdate).title = plainRec.title) ∧
    (apiTrueUpdate.body = none →
      (mergeArticle plainRec apiTrueUpdate).body = plainRec.body) ∧
    (apiTrueUpdate.slug = none →
      (mergeArticle plainRec apiTrueUpdate).slug = plainRec.slug) ∧
    (apiTrueUpdate.status = none →
      (mergeArticle plainRec apiTrueUpdate).status = plainRec.status) ∧
    (apiTrueUpdate.meta_title = none →
      (mergeArticle plainRec apiTrueUpdate).meta_title = plainRec.meta_title) ∧
    (apiTrueUpdate.meta_description = none →
      (mergeArticle plainRec apiTrueUpdate).meta_description =
        plainRec.meta_description) ∧
    (apiTrueUpdate.api_posted = none →
      (mergeArticle plainRec apiTrueUpdate).api_posted = plainRec.api_posted)) :=
  ⟨⟨by decide, by decide, by decide, by decide⟩,
   C4_update_changes_only_target [specialRec] [] plainRec apiTrueUpdate 2
     (by decide) (by decide) (by decide) (by decide)⟩

end BlogAutomate

namespace BlogAutomate

/-- Consuming a comma-free, quote-free prefix just shifts it into the
accumulator. -/
theorem pfa_clean_shift (s1 : List Char)
    (hs : ∀ c ∈ s1, c ≠ '\"' ∧ c ≠ ',') :
    ∀ cur rest, parseFieldsAux false cur (s1 ++ rest) =
      parseFieldsAux false (s1.reverse ++ cur) rest := by
  induction s1 with
  | nil => intro cur rest; simp
  | cons c t ih =>
    intro cur rest
    have hc := hs c (List.mem_cons_self c t)
    rw [List.cons_append, pfa_other false cur _ c hc.1 hc.2,
      ih (fun x hx => hs x (List.mem_cons_of_mem c hx))]
    simp

/-- The first field emitted by the splitter is the reversed accumulator
followed by what the splitter emits from a fresh accumulator. -/
theorem pfa_headD_acc : ∀ (n : Nat) (S : List Char), S.length ≤ n →
    ∀ (ins : Bool) (cur : List Char),
    (parseFieldsAux ins cur S).headD [] =
      cur.reverse ++ (parseFieldsAux ins [] S).headD [] := by
  intro n
  induction n with
  | zero =>
    intro S hS ins cur
    have : S = [] := List.length_eq_zero.mp (Nat.le_zero.mp hS)
    subst this
    simp [pfa_nil]
  | succ n ih =>
    intro S hS ins cur
    match S with
    | [] => simp [pfa_nil]
    | c :: rest =>
      have hrest : rest.length ≤ n := by
        simp at hS
        omega
      by_cases hq : c = '\"'
      · subst hq
        match ins with
        | false =>
          rw [pfa_quote_out, pfa_quote_out, ih rest hrest true cur,
            ih rest hrest true []]
          try simp
        | true =>
          match rest with
          | [] =>
            rw [pfa_quote_in_nil, pfa_quote_in_nil]
            simp
          | d :: rest2 =>
            by_cases hd : d = '\"'
            · subst hd
              have hr2 : rest2.length ≤ n := by
                simp at hS
                omega
              rw [pfa_quote_in_quote, pfa_quote_in_quote,
                ih rest2 hr2 true ('\"' :: cur), ih rest2 hr2 true ['\"'],
                ih rest2 hr2 true []]
              simp
            · rw [pfa_quote_in_other cur _ d hd, pfa_quote_in_other [] _ d hd,
                ih (d :: rest2) hrest false cur, ih (d :: rest2) hrest false []]
              try simp
      · by_cases hcm : c = ','
        · subst hcm
          match ins with
          | false =>
            rw [pfa_comma_out, pfa_comma_out]
            simp
          | true =>
            rw [pfa_comma_in, pfa_comma_in, ih rest hrest true (',' :: cur),
              ih rest hrest true [','], ih rest hrest true []]
            simp
        · rw [pfa_other ins cur _ c hq hcm, pfa_other ins [] _ c hq hcm,
            ih rest hrest ins (c :: cur), ih rest hrest ins [c],
            ih rest hrest ins []]
          simp

theorem replicate_quote_shift (j : Nat) (Z : List Char) :
    List.replicate j '\"' ++ '\"' :: Z = List.replicate (j + 1) '\"' ++ Z := by
  rw [show ('\"' :: Z) = ['\"'] ++ Z from rfl, ← List.append_assoc,
    ← List.replicate_succ']

/-- Inside a quoted region the first emitted field can never equal a
positive run of quotes followed by the unconsumed remainder of the stream:
an emitted quote consumes a doubled pair, so the emission always lags the
stream. -/
theorem pfa_inside_no_echo : ∀ (n : Nat) (u : List Char), u.length ≤ n →
    ∀ (w : List Char) (j : Nat),
    (parseFieldsAux true [] (u ++ ',' :: w)).headD [] ≠
      List.replicate (j + 1) '\"' ++ u := by
  intro n
  induction n with
  | zero =>
    intro u hu w j
    have : u = [] := List.length_eq_zero.mp (Nat.le_zero.mp hu)
    subst this
    rw [List.nil_append, pfa_comma_in,
      pfa_headD_acc w.length w le_rfl true [',']]
    intro e
    rw [List.replicate_succ, List.append_nil] at e
    have := congrArg (fun l => l.headD ' ') e
    simp at this
  | succ n ih =>
    intro u hu w j
    match u with
    | [] =>
      rw [List.nil_append, pfa_comma_in,
        pfa_headD_acc w.length w le_rfl true [',']]
      intro e
      rw [List.replicate_succ, List.append_nil] at e
      have := congrArg (fun l => l.headD ' ') e
      simp at this
    | c :: u1 =>
      have hu1 : u1.length ≤ n := by simp at hu; omega
      by_cases hq : c = '\"'
      · subst hq
        match u1 with
        | [] =>
          rw [List.cons_append, List.nil_append,
            pfa_quote_in_other [] _ ',' (by decide), pfa_comma_out]
          intro e
          rw [List.replicate_succ] at e
          simp at e
        | d :: u2 =>
          have hu2 : u2.length ≤ n := by simp at hu; omega
          by_cases hd : d = '\"'
          · subst hd
            rw [List.cons_append, List.cons_append, pfa_quote_in_quote,
              pfa_headD_acc _ _ le_rfl true ['\"']]
            intro e
            rw [show (List.replicate (j + 1) '\"' ++ '\"' :: '\"' :: u2) =
              '\"' :: (List.replicate (j + 2) '\"' ++ u2) from by
                rw [replicate_quote_shift (j + 1) ('\"' :: u2),
                  replicate_quote_shift (j + 2) u2, List.replicate_succ,
                  List.cons_append]] at e
            simp only [List.reverse_singleton, List.singleton_append,
              List.cons.injEq] at e
            exact ih u2 hu2 w (j + 1) e.2
          · rw [List.cons_append, List.cons_append,
              pfa_quote_in_other [] _ d hd]
            by_cases hdc : d = ','
            · subst hdc
              rw [pfa_comma_out]
              intro e
              rw [List.replicate_succ] at e
              simp at e
            · rw [pfa_other false [] _ d hd hdc,
                pfa_headD_acc _ _ le_rfl false [d]]
              intro e
              rw [List.replicate_succ] at e
              simp only [List.reverse_singleton, List.singleton_append,
                List.cons_append, List.cons.injEq] at e
              exact hd e.1
      · rw [List.cons_append, pfa_in_ord [] _ c hq,
          pfa_headD_acc _ _ le_rfl true [c]]
        intro e
        rw [List.replicate_succ] at e
        simp only [List.reverse_singleton, List.singleton_append,
          List.cons_append, List.cons.injEq] at e
        exact hq e.1

end BlogAutomate

namespace BlogAutomate

/-- Split a field at its first comma or quote. -/
theorem exists_special_split {f : List Char}
    (h : (',' ∈ f) ∨ ('\"' ∈ f)) :
    ∃ s1 x s2, f = s1 ++ x :: s2 ∧ (x = ',' ∨ x = '\"') ∧
      (∀ c ∈ s1, c ≠ '\"' ∧ c ≠ ',') := by
  induction f with
  | nil => simp at h
  | cons c t ih =>
    by_cases hc : c = ',' ∨ c = '\"'
    · exact ⟨[], c, t, rfl, hc, by simp⟩
    · push_neg at hc
      have h2 : (',' ∈ t) ∨ ('\"' ∈ t) := by
        rcases h with h1 | h1 <;> rcases List.mem_cons.mp h1 with e | hm
        · exact absurd e.symm hc.1
        · exact Or.inl hm
        · exact absurd e.symm hc.2
        · exact Or.inr hm
      obtain ⟨s1, x, s2, e, hx, hs1⟩ := ih h2
      refine ⟨c :: s1, x, s2, by rw [e, List.cons_append], hx, ?_⟩
      intro y hy
      rcases List.mem_cons.mp hy with e2 | hm
      · subst e2; exact ⟨hc.2, hc.1⟩
      · exact hs1 y hm

/-- A verbatim column containing a comma or quote never comes back intact:
the first field the splitter emits from `f ++ ',' :: rest` differs from `f`. -/
theorem dirty_field_not_echoed (f rest : List Char)
    (h : (',' ∈ f) ∨ ('\"' ∈ f)) :
    (parseFieldsAux false [] (f ++ ',' :: rest)).headD [] ≠ f := by
  obtain ⟨s1, x, s2, e, hx, hs1⟩ := exists_special_split h
  subst e
  rw [List.append_assoc, List.cons_append, pfa_clean_shift s1 hs1,
    List.append_nil]
  rcases hx with hx | hx
  · subst hx
    rw [pfa_comma_out]
    intro e2
    have := congrArg List.length e2
    simp at this
  · subst hx
    rw [pfa_quote_out, pfa_headD_acc _ _ le_rfl true s1.reverse]
    intro e2
    rw [List.reverse_reverse] at e2
    have e3 : (parseFieldsAux true [] (s2 ++ ',' :: rest)).headD [] =
        '\"' :: s2 := by
      have := congrArg (fun l => l.drop s1.length) e2
      simpa using this
    exact pfa_inside_no_echo s2.length s2 le_rfl rest 0
      (by simpa using e3)

/-- Concatenation of emitted records with newline separators. -/
def nlJoin : List (List Char) → List Char
  | [] => []
  | [x] => x
  | x :: xs => x ++ '\n' :: nlJoin xs

theorem join_eq_nil : ∀ (ps : List (List Char)) (cur : List Char),
    joinLinesAux cur ps = [] → ps = [] ∧ cur = [] := by
  intro ps
  induction ps with
  | nil =>
    intro cur h
    by_cases hc : cur = []
    · exact ⟨rfl, hc⟩
    · rw [show joinLinesAux cur [] = [cur] from by simp [joinLinesAux, hc]] at h
      simp at h
  | cons p t ih =>
    intro cur h
    by_cases he : countQ (if cur = [] then p else cur ++ '\n' :: p) % 2 = 0
    · rw [show joinLinesAux cur (p :: t) =
        (if cur = [] then p else cur ++ '\n' :: p) :: joinLinesAux [] t from by
          simp only [joinLinesAux]; rw [if_pos he]] at h
      simp at h
    · rw [show joinLinesAux cur (p :: t) =
        joinLinesAux (if cur = [] then p else cur ++ '\n' :: p) t from by
          simp only [joinLinesAux]; rw [if_neg he]] at h
      have h2 := (ih _ h).2
      by_cases hc : cur = []
      · rw [if_pos hc] at h2 he
        subst h2
        exact (he (by simp [countQ])).elim
      · rw [if_neg hc] at h2
        exact absurd h2 (List.append_ne_nil_of_right_ne_nil cur (by simp))

theorem nlJoin_cons (x : List Char) (xs : List (List Char)) :
    nlJoin (x :: xs) = if xs = [] then x else x ++ '\n' :: nlJoin xs := by
  match xs with
  | [] => simp [nlJoin]
  | y :: ys => simp [nlJoin]

/-- The record joiner preserves the concatenated content. -/
theorem nlJoin_joinLinesAux : ∀ (ps : List (List Char)) (cur : List Char),
    nlJoin (joinLinesAux cur ps) =
      if cur = [] then nlJoin ps
      else if ps = [] then cur else cur ++ '\n' :: nlJoin ps := by
  intro ps
  induction ps with
  | nil =>
    intro cur
    by_cases hc : cur = []
    · simp [hc, joinLinesAux, nlJoin]
    · simp [hc, joinLinesAux, nlJoin]
  | cons p t ih =>
    intro cur
    by_cases he : countQ (if cur = [] then p else cur ++ '\n' :: p) % 2 = 0
    · rw [show joinLinesAux cur (p :: t) =
        (if cur = [] then p else cur ++ '\n' :: p) :: joinLinesAux [] t from by
          simp only [joinLinesAux]; rw [if_pos he]]
      rw [nlJoin_cons, ih []]
      by_cases ht : t = []
      · subst ht
        have : joinLinesAux ([] : List Char) ([] : List (List Char)) = [] := by
          simp [joinLinesAux]
        rw [this]
        by_cases hc : cur = [] <;> simp [hc, nlJoin, nlJoin_cons]
      · have hj : joinLinesAux ([] : List Char) t ≠ [] := by
          intro e
          exact ht (join_eq_nil t [] e).1
        rw [if_neg hj, if_pos rfl]
        by_cases hc : cur = []
        · rw [if_pos hc, if_pos hc, nlJoin_cons, if_neg ht]
        · rw [if_neg hc, if_neg hc, if_neg (by simp : p :: t ≠ []),
            nlJoin_cons, if_neg ht]
          simp
    · rw [show joinLinesAux cur (p :: t) =
        joinLinesAux (if cur = [] then p else cur ++ '\n' :: p) t from by
          simp only [joinLinesAux]; rw [if_neg he]]
      rw [ih _]
      have hp : p ≠ [] ∨ cur ≠ [] := by
        by_cases hc : cur = []
        · left
          intro ep
          rw [if_pos hc, ep] at he
          exact he (by simp [countQ])
        · right; exact hc
      by_cases hc : cur = []
      · rw [if_pos hc]
        have hpne : p ≠ [] := by
          rcases hp with h1 | h1
          · exact h1
          · exact absurd hc h1
        rw [if_neg hpne, if_pos hc, nlJoin_cons]
      · rw [if_neg hc,
          if_neg (List.append_ne_nil_of_right_ne_nil cur (by simp)),
          if_neg hc, if_neg (by simp : p :: t ≠ []), nlJoin_cons]
        by_cases ht : t = []
        · subst ht; simp
        · rw [if_neg ht, if_neg ht]
          simp

/-- Splitting at newlines and rejoining with newlines is the identity. -/
theorem nlJoin_splitNl : ∀ l : List Char, nlJoin (splitNl l) = l := by
  intro l
  induction l with
  | nil => rfl
  | cons c t ih =>
    by_cases hc : c = '\n'
    · subst hc
      rw [show splitNl ('\n' :: t) = [] :: splitNl t from by simp [splitNl],
        nlJoin_cons, if_neg (splitNl_ne_nil t), List.nil_append, ih]
    · obtain ⟨s, ss, e⟩ := List.exists_cons_of_ne_nil (splitNl_ne_nil t)
      rw [show splitNl (c :: t) = (c :: s) :: ss from by
        simp only [splitNl, if_neg hc, e]]
      rw [e] at ih
      rw [nlJoin_cons] at ih ⊢
      by_cases hss : ss = []
      · rw [if_pos hss] at ih ⊢
        rw [ih]
      · rw [if_neg hss] at ih ⊢
        rw [List.cons_append, ih]

end BlogAutomate

namespace BlogAutomate

theorem join_two_of_NlOdd (u v : List Char) (he : countQ u % 2 = 0)
    (hodd : NlOdd u) :
    2 ≤ (joinLinesAux [] (splitNl (u ++ '\n' :: v))).length := by
  rw [splitNl_append, joins_record u he hodd]
  have h1 : joinLinesAux [] (splitNl v) ≠ [] :=
    fun e => splitNl_ne_nil v (join_eq_nil _ _ e).1
  have h2 := List.length_pos.mpr h1
  simp only [List.length_cons]
  omega

/-- A newline sitting at even quote depth makes the record joiner emit at
least two records. -/
theorem even_split_two_records : ∀ (n : Nat) (u v : List Char),
    u.length ≤ n → countQ u % 2 = 0 →
    2 ≤ (joinLinesAux [] (splitNl (u ++ '\n' :: v))).length := by
  intro n
  induction n with
  | zero =>
    intro u v hu he
    have : u = [] := List.length_eq_zero.mp (Nat.le_zero.mp hu)
    subst this
    exact join_two_of_NlOdd [] v he (fun u1 v1 e => by simp at e)
  | succ n ih =>
    intro u v hu he
    by_cases hodd : NlOdd u
    · exact join_two_of_NlOdd u v he hodd
    · unfold NlOdd at hodd
      push_neg at hodd
      obtain ⟨u1, v1, e, hne⟩ := hodd
      have he1 : countQ u1 % 2 = 0 := by omega
      have hlen : u1.length ≤ n := by
        subst e
        simp [List.length_append] at hu
        omega
      have e2 : u ++ '\n' :: v = u1 ++ '\n' :: (v1 ++ '\n' :: v) := by
        subst e
        simp
      rw [e2]
      exact ih u1 (v1 ++ '\n' :: v) hlen he1

theorem map_singleton {α β : Type} {f : α → β} {l : List α} {b : β}
    (h : l.map f = [b]) : ∃ a, l = [a] ∧ f a = b := by
  match l with
  | [] => simp at h
  | [a] =>
    simp at h
    exact ⟨a, rfl, h⟩
  | a :: a2 :: t => simp at h

theorem getD_zero_headD (l : List (List Char)) :
    l.getD 0 [] = l.headD [] := by
  cases l <;> rfl

/-- Reading the one-record file reduces to joining and parsing the single
serialized line (no well-formedness needed). -/
theorem read_serialize_single (r : ArticleData) :
    readArticlesFromCSVL (articlesFileL [r]) =
      (joinLinesAux [] (splitNl (serializeArticleL r))).map parseCSVLineL := by
  unfold articlesFileL
  rw [show serializeAll [r] = serializeArticleL r ++ ['\n'] from rfl]
  unfold readArticlesFromCSVL
  rw [jsTrim_file _ (by
    obtain ⟨Y, e⟩ := serialize_concat r
    exact ⟨Y, _, e, isWs_api r.api_posted⟩)]
  rw [splitNl_append, splitNl_no_nl header_no_nl, List.singleton_append]
  have hlen : ¬ (headerChars :: splitNl (serializeArticleL r)).length ≤ 1 := by
    have h1 := splitNl_ne_nil (serializeArticleL r)
    have h2 := List.length_pos.mpr h1
    simp only [List.length_cons]
    omega
  rw [if_neg hlen, List.tail_cons]

/-- If parsing the serialized line returns the record, the category_id
column contains no comma and no quote. -/
theorem parse_eq_cat_clean {r : ArticleData}
    (hP : parseCSVLineL (serializeArticleL r) = r) :
    ¬ ((',' ∈ r.category_id.data) ∨ ('\"' ∈ r.category_id.data)) := by
  intro hdirty
  have hcat := congrArg (fun a => a.category_id) hP
  unfold parseCSVLineL splitCSVFields at hcat
  rw [serialize_normal r,
    pfa0_clean _ _ (idFieldChars_clean r.id)] at hcat
  simp only [List.getD_cons_zero, List.getD_cons_succ, getD_zero_headD] at hcat
  have hdata := congrArg String.data hcat
  simp only at hdata
  exact dirty_field_not_echoed _ _ hdirty hdata

/-- If additionally the category_id column is clean, the slug column
contains no comma and no quote. -/
theorem parse_eq_slug_clean {r : ArticleData}
    (hP : parseCSVLineL (serializeArticleL r) = r)
    (hcat2 : ∀ c ∈ r.category_id.data, c ≠ '\"' ∧ c ≠ ',') :
    ¬ ((',' ∈ r.slug.data) ∨ ('\"' ∈ r.slug.data)) := by
  intro hdirty
  have hslug := congrArg (fun a => a.slug) hP
  unfold parseCSVLineL splitCSVFields at hslug
  rw [serialize_normal r,
    pfa0_clean _ _ (idFieldChars_clean r.id),
    pfa0_clean _ _ hcat2,
    pfa0_escape, pfa0_escape] at hslug
  simp only [List.getD_cons_zero, List.getD_cons_succ, getD_zero_headD] at hslug
  have hdata := congrArg String.data hslug
  simp only at hdata
  exact dirty_field_not_echoed _ _ hdirty hdata

theorem countQ_zero_of_not_mem {l : List Char} (h : '\"' ∉ l) : countQ l = 0 :=
  countQ_of_no_quote h

/-- Necessity: a record that survives the single-record file round-trip has
clean slug and category_id columns. -/
theorem single_roundtrip_clean (r : ArticleData)
    (h : readArticlesFromCSVL (articlesFileL [r]) = [r]) :
    cleanField r.slug.data = true ∧ cleanField r.category_id.data = true := by
  rw [read_serialize_single r] at h
  obtain ⟨rec0, hrec, hparse⟩ := map_singleton h
  have hrec0 : rec0 = serializeArticleL r := by
    have h1 := congrArg nlJoin hrec
    rw [nlJoin_joinLinesAux, if_pos rfl, nlJoin_splitNl] at h1
    simpa [nlJoin] using h1.symm
  rw [hrec0] at hparse
  have hNlOdd : NlOdd (serializeArticleL r) := by
    intro u v e
    by_contra hne
    have he : countQ u % 2 = 0 := by omega
    have h2 := even_split_two_records u.length u v le_rfl he
    rw [← e, hrec] at h2
    simp at h2
  have hcatd := parse_eq_cat_clean hparse
  push_neg at hcatd
  have hcat2 : ∀ c ∈ r.category_id.data, c ≠ '\"' ∧ c ≠ ',' := by
    intro c hc
    constructor <;> intro e <;> subst e
    · exact hcatd.2 hc
    · exact hcatd.1 hc
  have hslugd := parse_eq_slug_clean hparse hcat2
  push_neg at hslugd
  have hcatq : countQ r.category_id.data = 0 :=
    countQ_zero_of_not_mem hcatd.2
  have hcatnl : '\n' ∉ r.category_id.data := by
    intro hm
    obtain ⟨c1, c2, e, _⟩ := exists_nl_split hm
    have hsplit := hNlOdd (idFieldChars r.id ++ ',' :: c1)
      (c2 ++ ',' :: (escapeCSVField r.title.data ++ ',' ::
        (escapeCSVField r.body.data ++ ',' :: (r.slug.data ++ ',' ::
          (r.status.data ++ ',' :: (escapeCSVField r.meta_title.data ++ ',' ::
            (escapeCSVField r.meta_description.data ++ ',' ::
              [if r.api_posted then '1' else '0'])))))))
      (by rw [serialize_normal r, e]; simp)
    have hidq : countQ (idFieldChars r.id) = 0 :=
      countQ_zero_of_not_mem
        (cleanField_no_quote (cleanField_idFieldChars r.id))
    have hc1q : countQ c1 = 0 :=
      countQ_zero_of_not_mem (fun hq => hcatd.2 (e ▸ List.mem_append.mpr
        (Or.inl hq)))
    rw [countQ_append, countQ_cons, hidq, hc1q] at hsplit
    simp at hsplit
  have hslugq : countQ r.slug.data = 0 :=
    countQ_zero_of_not_mem hslugd.2
  have hslugnl : '\n' ∉ r.slug.data := by
    intro hm
    obtain ⟨s1, s2, e, _⟩ := exists_nl_split hm
    have hsplit := hNlOdd (idFieldChars r.id ++ ',' ::
      (r.category_id.data ++ ',' :: (escapeCSVField r.title.data ++ ',' ::
        (escapeCSVField r.body.data ++ ',' :: s1))))
      (s2 ++ ',' :: (r.status.data ++ ',' ::
        (escapeCSVField r.meta_title.data ++ ',' ::
          (escapeCSVField r.meta_description.data ++ ',' ::
            [if r.api_posted then '1' else '0']))))
      (by rw [serialize_normal r, e]; simp)
    have hidq : countQ (idFieldChars r.id) = 0 :=
      countQ_zero_of_not_mem
        (cleanField_no_quote (cleanField_idFieldChars r.id))
    have hs1q : countQ s1 = 0 :=
      countQ_zero_of_not_mem (fun hq => hslugd.2 (e ▸ List.mem_append.mpr
        (Or.inl hq)))
    have htit := (GoodBlock_escape r.title.data).1
    have hbod := (GoodBlock_escape r.body.data).1
    rw [countQ_append, countQ_cons, countQ_append, countQ_cons,
      countQ_append, countQ_cons, countQ_append, countQ_cons,
      hidq, hcatq, hs1q] at hsplit
    simp at hsplit
    omega
  constructor
  · unfold cleanField
    rw [List.all_eq_true]
    intro c hc
    simp only [Bool.and_eq_true, decide_eq_true_eq]
    exact ⟨⟨fun e => hslugd.1 (e ▸ hc), fun e => hslugd.2 (e ▸ hc)⟩,
      fun e => hslugnl (e ▸ hc)⟩
  · unfold cleanField
    rw [List.all_eq_true]
    intro c hc
    simp only [Bool.and_eq_true, decide_eq_true_eq]
    exact ⟨⟨fun e => hcatd.1 (e ▸ hc), fun e => hcatd.2 (e ▸ hc)⟩,
      fun e => hcatnl (e ▸ hc)⟩

end BlogAutomate

namespace BlogAutomate

/-- C10: serialization escapes only title, body, meta_title and
meta_description; id, category_id, slug, status and api_posted are written
verbatim (first two conjuncts: a comma-laden category_id/slug/status pass
through unquoted while title/body/meta are quoted), so parse-after-serialize
recovers a record exactly only when its slug and category_id contain no
comma, double quote or newline (third conjunct: necessity). -/
theorem C10_verbatim_columns_roundtrip_only_if_clean :
    serializeArticle ⟨some 7, "c,at", "t,1", "b", "s,lug", "draft", "", "",
      false⟩ = "7,c,at,\"t,1\",b,s,lug,draft,,,0" ∧
    serializeArticle ⟨some 8, "2", "t", "a\"b\nc", "s", "dr,aft", "m,t",
      "m\"d", true⟩ = "8,2,t,\"a\"\"b\nc\",s,dr,aft,\"m,t\",\"m\"\"d\",1" ∧
    (∀ r : ArticleData,
      readArticlesFromCSV (articlesFile [r]) = [r] →
      cleanField r.slug.data = true ∧ cleanField r.category_id.data = true) :=
  ⟨by decide, by decide, fun r h => single_roundtrip_clean r h⟩

/-- Witness for C10: a record with clean slug and category_id that does
round-trip, run through the necessity direction. -/
theorem C10_witness :
    readArticlesFromCSV (articlesFile [specialRec]) = [specialRec] ∧
    (cleanField specialRec.slug.data = true ∧
     cleanField specialRec.category_id.data = true) :=
  ⟨by decide,
   C10_verbatim_columns_roundtrip_only_if_clean.2.2 specialRec (by decide)⟩

end BlogAutomate

namespace BlogAutomate

/-- PersonaData record (src/types/article.ts). -/
structure PersonaData where
  Category : String
  Persona_Detail : String
  Worry_Description : String
  Tone_Instruction : String
  Context_Scenario : String
deriving DecidableEq, Repr

/-- SeoKeywordData record (src/types/article.ts). -/
structure SeoKeywordData where
  ID : String
  Category : String
  Main_Keyword : String
  Sub_Keywords : String
  User_Intent : String
  Title_Idea : String
deriving DecidableEq, Repr

/-- One matched generation task. -/
structure MatchedTask where
  persona : PersonaData
  keyword : SeoKeywordData
deriving DecidableEq, Repr

/-- `matchPersonaWithKeywords` (src/util/csvReader.ts): loop over keywords,
`find` the first persona with the same Category, push a task on a hit,
silently continue otherwise. -/
def matchPersonaWithKeywords (personas : List PersonaData)
    (keywords : List SeoKeywordData) : List MatchedTask :=
  keywords.foldl
    (fun ms keyword =>
      match personas.find? (fun p => p.Category = keyword.Category) with
      | some p => ms ++ [⟨p, keyword⟩]
      | none => ms) []

theorem matcher_foldl_acc (personas : List PersonaData) :
    ∀ (ks : List SeoKeywordData) (acc : List MatchedTask),
    ks.foldl
      (fun ms keyword =>
        match personas.find? (fun p => p.Category = keyword.Category) with
        | some p => ms ++ [⟨p, keyword⟩]
        | none => ms) acc =
    acc ++ ks.filterMap (fun keyword =>
      (personas.find? (fun p => p.Category = keyword.Category)).map
        (fun p => ⟨p, keyword⟩)) := by
  intro ks
  induction ks with
  | nil => intro acc; simp
  | cons k t ih =>
    intro acc
    rw [List.foldl_cons, List.filterMap_cons]
    cases hf : personas.find? (fun p => p.Category = k.Category) with
    | none =>
      simp only [hf]
      rw [ih]
      simp
    | some p =>
      simp only [hf]
      rw [ih]
      simp

/-- C8: the Matcher emits, in keyword input order, one task per keyword
whose Category matches some persona, pairing it with the first such persona
in persona input order (`find?`), silently dropping unmatched keywords; on
the spec's example it emits exactly (A,k1) and (B,k3). -/
theorem C8_matcher_order_first_match (personas : List PersonaData)
    (keywords : List SeoKeywordData) :
    matchPersonaWithKeywords personas keywords =
      keywords.filterMap (fun keyword =>
        (personas.find? (fun p => p.Category = keyword.Category)).map
          (fun p => ⟨p, keyword⟩)) ∧
    (∀ t ∈ matchPersonaWithKeywords personas keywords,
      t.persona ∈ personas ∧ t.keyword ∈ keywords ∧
      t.persona.Category = t.keyword.Category ∧
      personas.find? (fun p => p.Category = t.keyword.Category) =
        some t.persona) ∧
    matchPersonaWithKeywords
      [⟨"A", "", "", "", ""⟩, ⟨"B", "", "", "", ""⟩]
      [⟨"k1", "A", "", "", "", ""⟩, ⟨"k2", "C", "", "", "", ""⟩,
       ⟨"k3", "B", "", "", "", ""⟩] =
      [⟨⟨"A", "", "", "", ""⟩, ⟨"k1", "A", "", "", "", ""⟩⟩,
       ⟨⟨"B", "", "", "", ""⟩, ⟨"k3", "B", "", "", "", ""⟩⟩] := by
  have hchar : matchPersonaWithKeywords personas keywords =
      keywords.filterMap (fun keyword =>
        (personas.find? (fun p => p.Category = keyword.Category)).map
          (fun p => ⟨p, keyword⟩)) := by
    unfold matchPersonaWithKeywords
    rw [matcher_foldl_acc]
    simp
  refine ⟨hchar, ?_, by decide⟩
  intro t ht
  rw [hchar] at ht
  obtain ⟨k, hk, hmap⟩ := List.mem_filterMap.mp ht
  match hf : personas.find? (fun p => p.Category = k.Category) with
  | none => simp [hf] at hmap
  | some p =>
    simp only [hf] at hmap
    simp at hmap
    subst hmap
    have hmem := List.mem_of_find?_eq_some hf
    have hcat := List.find?_some hf
    simp only [decide_eq_true_eq] at hcat
    exact ⟨hmem, hk, hcat, hf⟩

/-- Witness for C8: the property conjunct instantiated at the spec example's
first emitted task. -/
theorem C8_witness :
    (⟨⟨"A", "", "", "", ""⟩, ⟨"k1", "A", "", "", "", ""⟩⟩ : MatchedTask) ∈
      matchPersonaWithKeywords
        [⟨"A", "", "", "", ""⟩, ⟨"B", "", "", "", ""⟩]
        [⟨"k1", "A", "", "", "", ""⟩, ⟨"k2", "C", "", "", "", ""⟩,
         ⟨"k3", "B", "", "", "", ""⟩] ∧
    ((⟨"A", "", "", "", ""⟩ : PersonaData) ∈
      [(⟨"A", "", "", "", ""⟩ : PersonaData), ⟨"B", "", "", "", ""⟩] ∧
     (⟨"k1", "A", "", "", "", ""⟩ : SeoKeywordData) ∈
      [(⟨"k1", "A", "", "", "", ""⟩ : SeoKeywordData),
       ⟨"k2", "C", "", "", "", ""⟩, ⟨"k3", "B", "", "", "", ""⟩] ∧
     (⟨"A", "", "", "", ""⟩ : PersonaData).Category =
      (⟨"k1", "A", "", "", "", ""⟩ : SeoKeywordData).Category ∧
     [(⟨"A", "", "", "", ""⟩ : PersonaData), ⟨"B", "", "", "", ""⟩].find?
        (fun p => p.Category =
          (⟨"k1", "A", "", "", "", ""⟩ : SeoKeywordData).Category) =
       some ⟨"A", "", "", "", ""⟩) :=
  ⟨by decide,
   (C8_matcher_order_first_match
      [⟨"A", "", "", "", ""⟩, ⟨"B", "", "", "", ""⟩]
      [⟨"k1", "A", "", "", "", ""⟩, ⟨"k2", "C", "", "", "", ""⟩,
       ⟨"k3", "B", "", "", "", ""⟩]).2.1
     ⟨⟨"A", "", "", "", ""⟩, ⟨"k1", "A", "", "", "", ""⟩⟩ (by decide)⟩

end BlogAutomate

namespace BlogAutomate

/-- Observable scheduling events of `generateMultipleArticles`: one
`genCall i` per loop iteration (the awaited `generateArticle` call for task
`i`), and `sleep ms` for each `await sleep(ms)`. -/
inductive BatchEvent where
  | genCall (i : Nat)
  | sleep (ms : Nat)
deriving DecidableEq, Repr

/-- The loop body of `generateMultipleArticles`: the outcome of each
`generateArticle` call is supplied as an oracle list (`.ok` = resolved,
`.error` = rejected).  On success the article is pushed and, unless the
task is the last one, `sleep(2000)` is awaited (the sleep sits inside the
`try`, after the push); on failure the error is logged and the loop
continues with no sleep. -/
def runBatch (n : Nat) : Nat → List (Except String ArticleData) →
    List ArticleData × List BatchEvent
  | _, [] => ([], [])
  | i, r :: rest =>
    let next := runBatch n (i + 1) rest
    match r with
    | .ok a =>
      (a :: next.1,
       .genCall i :: ((if i < n - 1 then [.sleep 2000] else []) ++ next.2))
    | .error _ => (next.1, .genCall i :: next.2)

/-- `generateMultipleArticles` over the oracle of per-task outcomes. -/
def generateMultipleArticles (results : List (Except String ArticleData)) :
    List ArticleData × List BatchEvent :=
  runBatch results.length 0 results

/-- Is there a sleep event between every two successive generation calls
(no two adjacent `genCall` events in the trace)? -/
def delayBetweenAllCalls : List BatchEvent → Bool
  | [] => true
  | [_] => true
  | e1 :: e2 :: t =>
    !((match e1 with | .genCall _ => true | _ => false) &&
      (match e2 with | .genCall _ => true | _ => false)) &&
    delayBetweenAllCalls (e2 :: t)

theorem runBatch_spec (n : Nat) : ∀ (rs : List (Except String ArticleData))
    (i : Nat),
    runBatch n i rs =
      (rs.filterMap (fun r => match r with | .ok a => some a | .error _ => none),
       (rs.enumFrom i).map (fun p =>
         BatchEvent.genCall p.1 ::
           (if p.2.isOk ∧ p.1 < n - 1 then [BatchEvent.sleep 2000] else [])) |>.join) := by
  intro rs
  induction rs with
  | nil => intro i; simp [runBatch]
  | cons r t ih =>
    intro i
    match r with
    | .ok a =>
      simp only [runBatch, ih (i + 1), List.filterMap_cons, List.enumFrom,
        List.map_cons, List.join]
      simp [Except.isOk, Except.toBool]
    | .error e =>
      simp only [runBatch, ih (i + 1), List.filterMap_cons, List.enumFrom,
        List.map_cons, List.join]
      simp [Except.isOk, Except.toBool]

/-- C2 (amended): `generateMultipleArticles` never aborts the batch: it
returns exactly the successfully generated records in task order, and its
event trace consists of one generation call per task where the fixed
2000 ms delay follows a call only when that call succeeded and was not the
last task — a failed task is not followed by the delay. -/
theorem C2_batch_partial_failure_and_delays
    (results : List (Except String ArticleData)) :
    (generateMultipleArticles results).1 =
      results.filterMap
        (fun r => match r with | .ok a => some a | .error _ => none) ∧
    (generateMultipleArticles results).2 =
      ((results.enum.map (fun p =>
        BatchEvent.genCall p.1 ::
          (if p.2.isOk ∧ p.1 < results.length - 1
           then [BatchEvent.sleep 2000] else []))).join) := by
  unfold generateMultipleArticles
  rw [runBatch_spec results.length results 0]
  exact ⟨rfl, rfl⟩

/-- Counterexample for C2 as frozen: with two tasks where the first
generation call rejects and the second succeeds, both generation calls run
with no delay anywhere between them, so the 2000 ms delay is not inserted
between every pair of successive generation calls. -/
theorem C2_counterexample :
    (generateMultipleArticles
      [Except.error "model failure", Except.ok plainRec]).1 = [plainRec] ∧
    (generateMultipleArticles
      [Except.error "model failure", Except.ok plainRec]).2 =
      [BatchEvent.genCall 0, BatchEvent.genCall 1] ∧
    delayBetweenAllCalls
      (generateMultipleArticles
        [Except.error "model failure", Except.ok plainRec]).2 = false := by
  refine ⟨by decide, by decide, by decide⟩

end BlogAutomate

namespace BlogAutomate

/-- The Laravel-side configuration consumed by the publisher; the config
module defaults missing env vars to the empty string, so a "missing"
endpoint or token is the empty string (falsy). -/
structure LaravelConfig where
  mockMode : Bool
  storeEndpoint : String
  apiToken : String
deriving DecidableEq, Repr

/-- Outcome of the awaited `axios.post`: a resolved response (status plus
whether the body carries an `article` object and its id), a rejected axios
error (optional HTTP status and derived message), or a non-axios error. -/
inductive TransportOutcome where
  | response (status : Nat) (hasArticle : Bool) (articleId : Int)
  | axiosError (status : Option Nat) (message : String)
  | otherError (message : String)
deriving DecidableEq, Repr

/-- `ArticlePublishResponse` (src/services/laravel/articlePublisher.ts). -/
structure ArticlePublishResponse where
  success : Bool
  articleId : Option Int
  message : Option String
deriving DecidableEq, Repr

/-- Rendering of `statusCode || 'N/A'` inside the axios error message. -/
def statusDisplay : Option Nat → String
  | none => "N/A"
  | some s => if s = 0 then "N/A" else ⟨natToChars s⟩

/-- `publishArticleToLaravel`: mock mode short-circuits with a synthetic
success; a falsy store endpoint or api token throws; otherwise the
transport outcome is interpreted — 201 plus an `article` object is success,
anything else (including thrown transport errors, which the `catch` block
converts) is a structured `success := false` result.  `Except.error`
models a thrown exception; `mockId` stands for the `Math.random` draw. -/
def publishArticleToLaravel (cfg : LaravelConfig) (mockId : Int)
    (outcome : TransportOutcome) : Except String ArticlePublishResponse :=
  if cfg.mockMode then
    .ok ⟨true, some mockId, some "Mock mode: Article published successfully"⟩
  else if cfg.storeEndpoint = "" then
    .error "Laravel API store endpoint is not configured"
  else if cfg.apiToken = "" then
    .error "Laravel API token is not configured"
  else
    match outcome with
    | .response status hasArticle articleId =>
      if status = 201 ∧ hasArticle then
        .ok ⟨true, some articleId, some "Article published successfully"⟩
      else
        .ok ⟨false, none, some "Failed to publish article"⟩
    | .axiosError status msg =>
      .ok ⟨false, none,
        some ("API Error (" ++ statusDisplay status ++ "): " ++ msg)⟩
    | .otherError msg =>
      .ok ⟨false, none, some ("Unexpected error: " ++ msg)⟩

/-- A transport-level outcome that is not the success shape: any rejection
(timeout, connection refused, non-2xx throws) or a fulfilled response that
is not 201-with-article. -/
def isRemoteFailure : TransportOutcome → Bool
  | .response status hasArticle _ => !((status = 201 : Bool) && hasArticle)
  | .axiosError _ _ => true
  | .otherError _ => true

/-- C6: the publisher never throws for ordinary remote failures — with mock
mode off and both endpoint and token configured, every transport outcome
yields a structured result, remote failures yield `success := false` with a
message; it throws exactly when (outside mock mode) the store endpoint or
the api token is missing. -/
theorem C6_publisher_throws_only_for_config (cfg : LaravelConfig)
    (mockId : Int) (outcome : TransportOutcome) :
    ((∃ e, publishArticleToLaravel cfg mockId outcome = .error e) ↔
      (cfg.mockMode = false ∧
        (cfg.storeEndpoint = "" ∨ cfg.apiToken = ""))) ∧
    (cfg.mockMode = false → cfg.storeEndpoint ≠ "" → cfg.apiToken ≠ "" →
      isRemoteFailure outcome = true →
      ∃ resp, publishArticleToLaravel cfg mockId outcome = .ok resp ∧
        resp.success = false ∧ resp.message.isSome = true) := by
  constructor
  · constructor
    · rintro ⟨e, he⟩
      unfold publishArticleToLaravel at he
      by_cases hm : cfg.mockMode
      · rw [if_pos hm] at he
        simp at he
      · rw [if_neg hm] at he
        refine ⟨by simpa using hm, ?_⟩
        by_cases hep : cfg.storeEndpoint = ""
        · exact Or.inl hep
        · rw [if_neg hep] at he
          by_cases htk : cfg.apiToken = ""
          · exact Or.inr htk
          · rw [if_neg htk] at he
            exfalso
            match outcome with
            | .response status hasArticle articleId =>
              simp only [] at he
              split at he <;> simp at he
            | .axiosError status msg => simp at he
            | .otherError msg => simp at he
    · rintro ⟨hm, hor⟩
      unfold publishArticleToLaravel
      rw [if_neg (by simp [hm])]
      rcases hor with hep | htk
      · rw [if_pos hep]
        exact ⟨_, rfl⟩
      · by_cases hep : cfg.storeEndpoint = ""
        · rw [if_pos hep]
          exact ⟨_, rfl⟩
        · rw [if_neg hep, if_pos htk]
          exact ⟨_, rfl⟩
  · intro hm hep htk hfail
    unfold publishArticleToLaravel
    rw [if_neg (by simp [hm]), if_neg hep, if_neg htk]
    match outcome with
    | .response status hasArticle articleId =>
      have hs : ¬ (status = 201 ∧ hasArticle) := by
        unfold isRemoteFailure at hfail
        simp only [Bool.not_eq_true', Bool.and_eq_false_iff] at hfail
        intro hcon
        simp [hcon.1, hcon.2] at hfail
      simp only []
      rw [if_neg hs]
      exact ⟨_, rfl, rfl, rfl⟩
    | .axiosError status msg => exact ⟨_, rfl, rfl, rfl⟩
    | .otherError msg => exact ⟨_, rfl, rfl, rfl⟩

/-- Witness for C6: a configured publisher turning a timeout rejection into
a structured failure, and a missing token throwing. -/
theorem C6_witness :
    ((⟨false, "http://api/store", "tok"⟩ : LaravelConfig).mockMode = false ∧
     (⟨false, "http://api/store", "tok"⟩ : LaravelConfig).storeEndpoint ≠ "" ∧
     (⟨false, "http://api/store", "tok"⟩ : LaravelConfig).apiToken ≠ "" ∧
     isRemoteFailure (.axiosError none "timeout of 30000ms exceeded") = true) ∧
    (∃ resp, publishArticleToLaravel ⟨false, "http://api/store", "tok"⟩ 0
        (.axiosError none "timeout of 30000ms exceeded") = .ok resp ∧
      resp.success = false ∧ resp.message.isSome = true) ∧
    ((∃ e, publishArticleToLaravel ⟨false, "http://api/store", ""⟩ 0
        (.axiosError none "timeout of 30000ms exceeded") = .error e) ↔
      ((⟨false, "http://api/store", ""⟩ : LaravelConfig).mockMode = false ∧
        ((⟨false, "http://api/store", ""⟩ : LaravelConfig).storeEndpoint = "" ∨
         (⟨false, "http://api/store", ""⟩ : LaravelConfig).apiToken = ""))) :=
  ⟨⟨rfl, by decide, by decide, rfl⟩,
   (C6_publisher_throws_only_for_config ⟨false, "http://api/store", "tok"⟩ 0
      (.axiosError none "timeout of 30000ms exceeded")).2
     rfl (by decide) (by decide) rfl,
   (C6_publisher_throws_only_for_config ⟨false, "http://api/store", ""⟩ 0
      (.axiosError none "timeout of 30000ms exceeded")).1⟩

end BlogAutomate

namespace BlogAutomate

/-- An entry of the external category catalog (ARTICLE_CATEGORIES.json). -/
structure ArticleCategory where
  id : Int
  name : String
  slug : String
deriving DecidableEq, Repr

/-- The static persona-label to catalog-name table
(`PERSONA_TO_CATEGORY_NAME`), in its insertion order. -/
def PERSONA_TO_CATEGORY_NAME : List (String × String) :=
  [("現役施設介護士", "お仕事の相談"),
   ("潜在有資格者", "介護資格"),
   ("収入・条件重視", "訪問介護")]

/-- The loop body of `getPersonaCategoryMapping`: walk the static table in
order; `find` each catalog name in the catalog; throw on the first missing
name, otherwise record label → id. -/
def buildMapping (catalog : List ArticleCategory) :
    List (String × String) → Except String (List (String × Int))
  | [] => .ok []
  | (label, catName) :: rest =>
    match catalog.find? (fun c => c.name = catName) with
    | none =>
      .error ("Category name \"" ++ catName ++
        "\" not found in ARTICLE_CATEGORIES.json for persona \"" ++
        label ++ "\"")
    | some c => (buildMapping catalog rest).map (fun m => (label, c.id) :: m)

/-- `getPersonaCategoryMapping`, with the catalog passed explicitly (the
source loads it from ARTICLE_CATEGORIES.json beside the code). -/
def getPersonaCategoryMapping (catalog : List ArticleCategory) :
    Except String (List (String × Int)) :=
  buildMapping catalog PERSONA_TO_CATEGORY_NAME

/-- `getCategoryIdFromPersona`: build the whole mapping (throwing a
configuration error if any mapped name is absent), then look the label up,
throwing the unknown-category error that lists the valid labels. -/
def getCategoryIdFromPersona (catalog : List ArticleCategory)
    (personaCategory : String) : Except String Int :=
  match getPersonaCategoryMapping catalog with
  | .error e => .error e
  | .ok mapping =>
    match mapping.lookup personaCategory with
    | none =>
      .error ("Persona category \"" ++ personaCategory ++
        "\" not found. Available categories: " ++
        String.intercalate ", " (mapping.map Prod.fst))
    | some v => .ok v

/-- C9: with every mapped catalog name present, each table label resolves to
the id of the first catalog entry carrying its mapped name, and an unmapped
label fails with the unknown-category error enumerating the three valid
labels; if any mapped catalog name is absent from the catalog, resolution
fails for every input label with the configuration error naming the first
absent name in table order (the mapping is built over the whole static
table before the lookup, throwing at the first missing name). -/
theorem C9_category_resolver (catalog : List ArticleCategory) :
    (∀ c1 c2 c3 : ArticleCategory,
      catalog.find? (fun c => c.name = "お仕事の相談") = some c1 →
      catalog.find? (fun c => c.name = "介護資格") = some c2 →
      catalog.find? (fun c => c.name = "訪問介護") = some c3 →
      getCategoryIdFromPersona catalog "現役施設介護士" = .ok c1.id ∧
      getCategoryIdFromPersona catalog "潜在有資格者" = .ok c2.id ∧
      getCategoryIdFromPersona catalog "収入・条件重視" = .ok c3.id ∧
      (∀ label : String,
        label ≠ "現役施設介護士" → label ≠ "潜在有資格者" →
        label ≠ "収入・条件重視" →
        getCategoryIdFromPersona catalog label =
          .error ("Persona category \"" ++ label ++
            "\" not found. Available categories: " ++
            "現役施設介護士, 潜在有資格者, 収入・条件重視"))) ∧
    (catalog.find? (fun c => c.name = "お仕事の相談") = none →
      ∀ label : String,
      getCategoryIdFromPersona catalog label =
        .error ("Category name \"お仕事の相談\" not found in " ++
          "ARTICLE_CATEGORIES.json for persona \"現役施設介護士\"")) ∧
    (∀ c1 : ArticleCategory,
      catalog.find? (fun c => c.name = "お仕事の相談") = some c1 →
      catalog.find? (fun c => c.name = "介護資格") = none →
      ∀ label : String,
      getCategoryIdFromPersona catalog label =
        .error ("Category name \"介護資格\" not found in " ++
          "ARTICLE_CATEGORIES.json for persona \"潜在有資格者\"")) ∧
    (∀ c1 c2 : ArticleCategory,
      catalog.find? (fun c => c.name = "お仕事の相談") = some c1 →
      catalog.find? (fun c => c.name = "介護資格") = some c2 →
      catalog.find? (fun c => c.name = "訪問介護") = none →
      ∀ label : String,
      getCategoryIdFromPersona catalog label =
        .error ("Category name \"訪問介護\" not found in " ++
          "ARTICLE_CATEGORIES.json for persona \"収入・条件重視\"")) := by
  refine ⟨?_, ?_, ?_, ?_⟩
  · intro c1 c2 c3 h1 h2 h3
    have hmap : getPersonaCategoryMapping catalog =
        .ok [("現役施設介護士", c1.id), ("潜在有資格者", c2.id),
             ("収入・条件重視", c3.id)] := by
      unfold getPersonaCategoryMapping PERSONA_TO_CATEGORY_NAME
      rw [buildMapping, h1, buildMapping, h2, buildMapping, h3, buildMapping]
      rfl
    refine ⟨?_, ?_, ?_, ?_⟩
    · unfold getCategoryIdFromPersona
      rw [hmap]
      rfl
    · unfold getCategoryIdFromPersona
      rw [hmap]
      rfl
    · unfold getCategoryIdFromPersona
      rw [hmap]
      rfl
    · intro label hne1 hne2 hne3
      unfold getCategoryIdFromPersona
      rw [hmap]
      have hlk : ([("現役施設介護士", c1.id), ("潜在有資格者", c2.id),
          ("収入・条件重視", c3.id)]).lookup label = none := by
        simp [List.lookup, beq_eq_false_iff_ne.mpr hne1,
          beq_eq_false_iff_ne.mpr hne2, beq_eq_false_iff_ne.mpr hne3]
      simp only []
      rw [hlk]
      rfl
  · intro h0 label
    unfold getCategoryIdFromPersona getPersonaCategoryMapping
      PERSONA_TO_CATEGORY_NAME
    rw [buildMapping, h0]
    rfl
  · intro c1 h1 h0 label
    unfold getCategoryIdFromPersona getPersonaCategoryMapping
      PERSONA_TO_CATEGORY_NAME
    rw [buildMapping, h1, buildMapping, h0]
    rfl
  · intro c1 c2 h1 h2 h0 label
    unfold getCategoryIdFromPersona getPersonaCategoryMapping
      PERSONA_TO_CATEGORY_NAME
    rw [buildMapping, h1, buildMapping, h2, buildMapping, h0]
    rfl

/-- Witness for C9: the concrete catalog of the spec example, where
"お仕事の相談" has id 3, and an unmapped label; plus concrete catalogs
missing the second (介護資格) and the third (訪問介護) mapped name, each
failing with the configuration error naming that name. -/
theorem C9_witness :
    ([⟨1, "訪問介護", "homon"⟩, ⟨2, "介護資格", "shikaku"⟩,
      ⟨3, "お仕事の相談", "soudan"⟩] : List ArticleCategory).find?
        (fun c => c.name = "お仕事の相談") = some ⟨3, "お仕事の相談", "soudan"⟩ ∧
    (getCategoryIdFromPersona
        [⟨1, "訪問介護", "homon"⟩, ⟨2, "介護資格", "shikaku"⟩,
         ⟨3, "お仕事の相談", "soudan"⟩] "現役施設介護士" =
      .ok (⟨3, "お仕事の相談", "soudan"⟩ : ArticleCategory).id ∧
     getCategoryIdFromPersona
        [⟨1, "訪問介護", "homon"⟩, ⟨2, "介護資格", "shikaku"⟩,
         ⟨3, "お仕事の相談", "soudan"⟩] "潜在有資格者" =
      .ok (⟨2, "介護資格", "shikaku"⟩ : ArticleCategory).id ∧
     getCategoryIdFromPersona
        [⟨1, "訪問介護", "homon"⟩, ⟨2, "介護資格", "shikaku"⟩,
         ⟨3, "お仕事の相談", "soudan"⟩] "収入・条件重視" =
      .ok (⟨1, "訪問介護", "homon"⟩ : ArticleCategory).id ∧
     (∀ label : String,
        label ≠ "現役施設介護士" → label ≠ "潜在有資格者" →
        label ≠ "収入・条件重視" →
        getCategoryIdFromPersona
          [⟨1, "訪問介護", "homon"⟩, ⟨2, "介護資格", "shikaku"⟩,
           ⟨3, "お仕事の相談", "soudan"⟩] label =
          .error ("Persona category \"" ++ label ++
            "\" not found. Available categories: " ++
            "現役施設介護士, 潜在有資格者, 収入・条件重視"))) ∧
    getCategoryIdFromPersona
        [⟨3, "お仕事の相談", "soudan"⟩] "現役施設介護士" =
      .error ("Category name \"介護資格\" not found in " ++
        "ARTICLE_CATEGORIES.json for persona \"潜在有資格者\"") ∧
    getCategoryIdFromPersona
        [⟨3, "お仕事の相談", "soudan"⟩, ⟨2, "介護資格", "shikaku"⟩]
        "収入・条件重視" =
      .error ("Category name \"訪問介護\" not found in " ++
        "ARTICLE_CATEGORIES.json for persona \"収入・条件重視\"") :=
  ⟨by decide,
   (C9_category_resolver
      [⟨1, "訪問介護", "homon"⟩, ⟨2, "介護資格", "shikaku"⟩,
       ⟨3, "お仕事の相談", "soudan"⟩]).1
     ⟨3, "お仕事の相談", "soudan"⟩ ⟨2, "介護資格", "shikaku"⟩
     ⟨1, "訪問介護", "homon"⟩ (by decide) (by decide) (by decide),
   (C9_category_resolver [⟨3, "お仕事の相談", "soudan"⟩]).2.2.1
     ⟨3, "お仕事の相談", "soudan"⟩ (by decide) (by decide) "現役施設介護士",
   (C9_category_resolver
      [⟨3, "お仕事の相談", "soudan"⟩, ⟨2, "介護資格", "shikaku"⟩]).2.2.2
     ⟨3, "お仕事の相談", "soudan"⟩ ⟨2, "介護資格", "shikaku"⟩
     (by decide) (by decide) (by decide) "収入・条件重視"⟩

end BlogAutomate

namespace BlogAutomate

/-! ### Generation client (src/unnamed/part_008): JSON extraction from the
raw model reply, JSON.parse, field validation and slug derivation.

Characters are Unicode code points; the repo's strings are UTF-16 but every
string in play is BMP-only, where the two notions agree. `JSON.parse` is
modelled by an executable parser of the JSON grammar (objects, arrays,
strings with escapes, numbers kept as their lexeme, true/false/null),
requiring the whole span to be consumed up to trailing whitespace, as
`JSON.parse` does. -/

def lbrace : Char := '\x7b'

def rbrace : Char := '\x7d'

/-- The regex match `generatedText.match(/\x7b[\s\S]*\x7d/)`: the greedy
match starts at the first opening brace that has a later closing brace and
runs to the last closing brace of the string; `none` when no such pair
exists. -/
def extractJsonSpan (s : List Char) : Option (List Char) :=
  match s.dropWhile (fun c => ¬ (c = lbrace)) with
  | [] => none
  | b :: rest =>
    match rest.reverse.dropWhile (fun c => ¬ (c = rbrace)) with
    | [] => none
    | r => some (b :: r.reverse)

/-- JSON whitespace (space, tab, line feed, carriage return). -/
def jsonWs (c : Char) : Bool := decide (c = ' ' ∨ c = '\t' ∨ c = '\n' ∨ c = '\r')

def skipWs (s : List Char) : List Char := s.dropWhile jsonWs

/-- A parsed JSON value. Numbers are kept as their source lexeme. -/
inductive JSValue where
  | str : List Char → JSValue
  | num : List Char → JSValue
  | bool : Bool → JSValue
  | null : JSValue
  | arr : List JSValue → JSValue
  | obj : List (List Char × JSValue) → JSValue
deriving Repr

def hexVal (c : Char) : Option Nat :=
  if decide ('0' ≤ c ∧ c ≤ '9') then some (c.toNat - 48)
  else if decide ('a' ≤ c ∧ c ≤ 'f') then some (c.toNat - 87)
  else if decide ('A' ≤ c ∧ c ≤ 'F') then some (c.toNat - 55)
  else none

def escChar : Char → Option Char
  | '"' => some '"'
  | '\\' => some '\\'
  | '/' => some '/'
  | 'b' => some '\x08'
  | 'f' => some '\x0c'
  | 'n' => some '\n'
  | 'r' => some '\r'
  | 't' => some '\t'
  | _ => none

/-- Parse the characters of a JSON string after its opening quote, handling
the escape sequences; returns the content and the rest of the input.
A `\u` escape yields the code point of its 16-bit value (surrogate pairs are
not recombined; none of the verified inputs use them). -/
def parseStrChars : List Char → Option (List Char × List Char)
  | [] => none
  | '"' :: rest => some ([], rest)
  | '\\' :: 'u' :: h1 :: h2 :: h3 :: h4 :: rest =>
    match hexVal h1, hexVal h2, hexVal h3, hexVal h4 with
    | some a, some b, some c, some d =>
      (parseStrChars rest).map
        (fun pr => (Char.ofNat (((a * 16 + b) * 16 + c) * 16 + d) :: pr.1, pr.2))
    | _, _, _, _ => none
  | '\\' :: e :: rest =>
    match escChar e with
    | none => none
    | some ch => (parseStrChars rest).map (fun pr => (ch :: pr.1, pr.2))
  | c :: rest =>
    if c.toNat < 32 then none
    else (parseStrChars rest).map (fun pr => (c :: pr.1, pr.2))

def parseFrac : List Char → Option (List Char × List Char)
  | '.' :: r =>
    match r.takeWhile isDigitChar with
    | [] => none
    | ds => some ('.' :: ds, r.dropWhile isDigitChar)
  | s => some ([], s)

def parseExp : List Char → Option (List Char × List Char)
  | [] => some ([], [])
  | e :: r =>
    if decide (e = 'e' ∨ e = 'E') then
      let (sg, r2) : List Char × List Char :=
        match r with
        | '+' :: r2 => (['+'], r2)
        | '-' :: r2 => (['-'], r2)
        | _ => ([], r)
      match r2.takeWhile isDigitChar with
      | [] => none
      | ds => some (e :: (sg ++ ds), r2.dropWhile isDigitChar)
    else some ([], e :: r)

def parseNumTail : List Char → Option (List Char × List Char)
  | [] => none
  | c :: r =>
    if ¬ isDigitChar c then none
    else
      let (ip, s2) : List Char × List Char :=
        if c = '0' then ([c], r)
        else (c :: r.takeWhile isDigitChar, r.dropWhile isDigitChar)
      match parseFrac s2 with
      | none => none
      | some (fp, s3) =>
        match parseExp s3 with
        | none => none
        | some (ep, s4) => some (ip ++ fp ++ ep, s4)

/-- The lexeme of a JSON number: `-?(0|[1-9][0-9]*)(.[0-9]+)?([eE][+-]?[0-9]+)?`. -/
def parseNumLexeme : List Char → Option (List Char × List Char)
  | '-' :: r => (parseNumTail r).map (fun pr => ('-' :: pr.1, pr.2))
  | s => parseNumTail s

/-- Parser mode: a value, or the inside of an object or array with the
members accumulated so far (in reverse). -/
inductive PMode where
  | value
  | objBody
  | objMember (acc : List (List Char × JSValue))
  | objMore (acc : List (List Char × JSValue))
  | arrBody
  | arrElem (acc : List JSValue)
  | arrMore (acc : List JSValue)

/-- Fuel-indexed JSON parser; every recursive call consumes input, so any
fuel beyond the input length is enough. -/
def parseJ : Nat → PMode → List Char → Option (JSValue × List Char)
  | 0, _, _ => none
  | fuel + 1, PMode.value, s =>
    match skipWs s with
    | [] => none
    | c :: rest =>
      if c = '"' then (parseStrChars rest).map (fun pr => (JSValue.str pr.1, pr.2))
      else if c = lbrace then parseJ fuel PMode.objBody rest
      else if c = '[' then parseJ fuel PMode.arrBody rest
      else
        match c :: rest with
        | 't' :: 'r' :: 'u' :: 'e' :: r => some (JSValue.bool true, r)
        | 'f' :: 'a' :: 'l' :: 's' :: 'e' :: r => some (JSValue.bool false, r)
        | 'n' :: 'u' :: 'l' :: 'l' :: r => some (JSValue.null, r)
        | s2 => (parseNumLexeme s2).map (fun pr => (JSValue.num pr.1, pr.2))
  | fuel + 1, PMode.objBody, s =>
    match skipWs s with
    | [] => none
    | c :: rest =>
      if c = rbrace then some (JSValue.obj [], rest)
      else parseJ fuel (PMode.objMember []) (c :: rest)
  | fuel + 1, PMode.objMember acc, s =>
    match skipWs s with
    | [] => none
    | c :: rest =>
      if c = '"' then
        match parseStrChars rest with
        | none => none
        | some (k, r2) =>
          match skipWs r2 with
          | ':' :: r3 =>
            match parseJ fuel PMode.value r3 with
            | none => none
            | some (v, r4) => parseJ fuel (PMode.objMore ((k, v) :: acc)) r4
          | _ => none
      else none
  | fuel + 1, PMode.objMore acc, s =>
    match skipWs s with
    | [] => none
    | c :: rest =>
      if c = rbrace then some (JSValue.obj acc.reverse, rest)
      else if c = ',' then parseJ fuel (PMode.objMember acc) rest
      else none
  | fuel + 1, PMode.arrBody, s =>
    match skipWs s with
    | [] => none
    | c :: rest =>
      if c = ']' then some (JSValue.arr [], rest)
      else parseJ fuel (PMode.arrElem []) (c :: rest)
  | fuel + 1, PMode.arrElem acc, s =>
    match parseJ fuel PMode.value s with
    | none => none
    | some (v, rem) => parseJ fuel (PMode.arrMore (v :: acc)) rem
  | fuel + 1, PMode.arrMore acc, s =>
    match skipWs s with
    | [] => none
    | c :: rest =>
      if c = ']' then some (JSValue.arr acc.reverse, rest)
      else if c = ',' then parseJ fuel (PMode.arrElem acc) rest
      else none

/-- `JSON.parse`: parse one value and require that only whitespace follows,
else throw (`none`). -/
def jsonParse (s : List Char) : Option JSValue :=
  match parseJ (2 * s.length + 4) PMode.value s with
  | some (v, rem) => if skipWs rem = [] then some v else none
  | none => none

def titleKey : List Char := "title".data

def bodyKey : List Char := "body".data

def slugKey : List Char := "slug".data

/-- Property access on the parsed value: on an object the last entry with
the key wins (as `JSON.parse` keeps the last duplicate key); anything else
gives `undefined` (`none`). -/
def jsGet : JSValue → List Char → Option JSValue
  | JSValue.obj ms, k => (ms.reverse.find? (fun p => p.1 = k)).map Prod.snd
  | _, _ => none

/-- A JSON number is zero exactly when every mantissa digit is 0 (double
underflow of tiny nonzero mantissas is not modelled; no verified input has
numeric fields). -/
def mantissaAllZero (lex : List Char) : Bool :=
  ((lex.takeWhile (fun c => ¬ (c = 'e' ∨ c = 'E'))).filter isDigitChar).all (· = '0')

/-- JS falsiness of `parsed.title` etc.: `undefined`, `null`, `false`, the
empty string and the number 0 are falsy. -/
def jsFalsy : Option JSValue → Bool
  | none => true
  | some JSValue.null => true
  | some (JSValue.bool b) => !b
  | some (JSValue.str cs) => cs.isEmpty
  | some (JSValue.num lex) => mantissaAllZero lex
  | some (JSValue.arr _) => false
  | some (JSValue.obj _) => false

/-- The character class kept by `generateSlug`: `[a-z0-9]`, hiragana
(U+3040–U+309F), katakana (U+30A0–U+30FF) and the CJK range U+4E00–U+9FAF. -/
def slugAllowed (c : Char) : Bool :=
  decide (('a' ≤ c ∧ c ≤ 'z') ∨ ('0' ≤ c ∧ c ≤ '9') ∨
    (0x3040 ≤ c.toNat ∧ c.toNat ≤ 0x309f) ∨
    (0x30a0 ≤ c.toNat ∧ c.toNat ≤ 0x30ff) ∨
    (0x4e00 ≤ c.toNat ∧ c.toNat ≤ 0x9faf))

/-- `.replace(/[^...]+/g, '-')`: each maximal run of disallowed characters
becomes a single hyphen. -/
def replRunsAux : Bool → List Char → List Char
  | _, [] => []
  | inRun, c :: rest =>
    if slugAllowed c then c :: replRunsAux false rest
    else if inRun then replRunsAux true rest
    else '-' :: replRunsAux true rest

/-- `.replace(/^-|-$/g, '')`: strips one leading and one trailing hyphen. -/
def trimHyphens (s : List Char) : List Char :=
  let s1 : List Char :=
    match s with
    | '-' :: r => r
    | _ => s
  match s1.reverse with
  | '-' :: r => r.reverse
  | _ => s1

/-- `generateSlug`: lower-case the title (ASCII case, which covers every
verified input), collapse disallowed runs to hyphens, strip one hyphen at
each end and keep the first 100 characters. -/
def generateSlug (title : List Char) : List Char :=
  (trimHyphens (replRunsAux false (title.map Char.toLower))).take 100

/-- The ways `generateArticleDraft` rejects a model reply after a successful
transport: no regex match (fixed message), `JSON.parse` threw (message
carries the engine's text), missing/falsy `title` or `body` (fixed message),
or the engine TypeError from `parsed.title.toLowerCase()` when a truthy
non-string title meets a falsy slug. -/
inductive GenError where
  | noJson
  | badJson
  | missingFields
  | typeError
deriving DecidableEq, Repr

/-- The fixed part of each error's message (`badJson` continues with the
engine's parse-error text). -/
def GenError.message : GenError → String
  | GenError.noJson => "Failed to parse JSON from model response"
  | GenError.badJson => "Failed to parse JSON: "
  | GenError.missingFields => "Generated article is missing required fields (title or body)"
  | GenError.typeError => "TypeError"

/-- The returned draft; the source casts the parsed fields to strings
without checking, so the fields keep the parsed JSON values. -/
structure ArticleGenerationResponse where
  title : JSValue
  body : JSValue
  slug : JSValue
deriving Repr

/-- The reply-processing tail of `generateArticleDraft` (after the transport
call): extract the greedy brace span, `JSON.parse` it, reject falsy
`title`/`body`, and return the draft with `parsed.slug || generateSlug(parsed.title)`. -/
def processModelReply (generatedText : List Char) : Except GenError ArticleGenerationResponse :=
  match extractJsonSpan generatedText with
  | none => Except.error GenError.noJson
  | some span =>
    match jsonParse span with
    | none => Except.error GenError.badJson
    | some parsed =>
      let titleO := jsGet parsed titleKey
      let bodyO := jsGet parsed bodyKey
      let slugO := jsGet parsed slugKey
      if jsFalsy titleO || jsFalsy bodyO then Except.error GenError.missingFields
      else if !(jsFalsy slugO) then
        Except.ok ⟨titleO.getD JSValue.null, bodyO.getD JSValue.null,
          slugO.getD JSValue.null⟩
      else
        match titleO with
        | some (JSValue.str t) =>
          Except.ok ⟨JSValue.str t, bodyO.getD JSValue.null,
            JSValue.str (generateSlug t)⟩
        | _ => Except.error GenError.typeError

/-- Spec-side definition, following the spec's words and NOT the source: the
first balanced brace-delimited substring, found by depth counting from the
first opening brace. Used only to compare the spec's claimed extraction with
the source's `extractJsonSpan`. -/
def fbAux : Nat → List Char → List Char → Option (List Char)
  | _, _, [] => none
  | depth, acc, c :: rest =>
    if c = lbrace then fbAux (depth + 1) (c :: acc) rest
    else if c = rbrace then
      match depth with
      | 0 => none
      | 1 => some ((c :: acc).reverse)
      | d + 2 => fbAux (d + 1) (c :: acc) rest
    else fbAux depth (c :: acc) rest

/-- Spec-side wrapper for `fbAux`: the first balanced object substring. -/
def firstBalancedObj (s : List Char) : Option (List Char) :=
  match s.dropWhile (fun c => ¬ (c = lbrace)) with
  | [] => none
  | b :: rest => fbAux 1 [b] rest

end BlogAutomate

namespace BlogAutomate

/-- A list that drops to `c :: t` under a predicate has `p c = false`. -/
theorem dropWhile_head_not (p : Char → Bool) :
    ∀ (l : List Char) (c : Char) (t : List Char), l.dropWhile p = c :: t → p c = false := by
  intro l
  induction l with
  | nil => intro c t h; cases h
  | cons a as ih =>
    intro c t h
    rw [List.dropWhile_cons] at h
    cases hpa : p a with
    | true => rw [hpa] at h; simp at h; exact ih c t h
    | false =>
      rw [hpa] at h
      simp at h
      rcases h with ⟨h1, _⟩
      subst h1
      exact hpa

/-- The greedy regex span splits the reply into a brace-free prefix, the
span (brace to brace), and a close-brace-free suffix. -/
theorem extract_span_split (s span : List Char) (h : extractJsonSpan s = some span) :
    ∃ pre mid : List Char, s = pre ++ span ++ mid ∧ ¬ lbrace ∈ pre ∧ ¬ rbrace ∈ mid ∧
      span.head? = some lbrace ∧ span.getLast? = some rbrace := by
  unfold extractJsonSpan at h
  cases ht : s.dropWhile (fun c => ¬ (c = lbrace)) with
  | nil => rw [ht] at h; cases h
  | cons b rest =>
    rw [ht] at h
    simp only [] at h
    have hb : b = lbrace := by
      have hh := dropWhile_head_not _ _ _ _ ht
      simpa using hh
    cases hr : rest.reverse.dropWhile (fun c => ¬ (c = rbrace)) with
    | nil => rw [hr] at h; cases h
    | cons x xs =>
      rw [hr] at h
      have hx : x = rbrace := by
        have hh := dropWhile_head_not _ _ _ _ hr
        simpa using hh
      injection h with hsp
      subst hsp
      refine ⟨s.takeWhile (fun c => ¬ (c = lbrace)),
        (rest.reverse.takeWhile (fun c => ¬ (c = rbrace))).reverse, ?_, ?_, ?_, ?_, ?_⟩
      · have h1 : s.takeWhile (fun c => ¬ (c = lbrace)) ++ (b :: rest) = s := by
          rw [← ht]; exact List.takeWhile_append_dropWhile _ _
        have h2 : rest.reverse.takeWhile (fun c => ¬ (c = rbrace)) ++ (x :: xs) =
            rest.reverse := by
          rw [← hr]; exact List.takeWhile_append_dropWhile _ _
        have h3 : rest = (x :: xs).reverse ++
            (rest.reverse.takeWhile (fun c => ¬ (c = rbrace))).reverse := by
          have h4 := congrArg List.reverse h2
          simpa using h4.symm
        conv_lhs => rw [← h1, h3]
        simp
      · intro hm
        have hh := List.mem_takeWhile_imp hm
        simp at hh
      · intro hm
        rw [List.mem_reverse] at hm
        have hh := List.mem_takeWhile_imp hm
        simp at hh
      · simp [hb]
      · show (b :: (x :: xs).reverse).getLast? = some rbrace
        rw [List.reverse_cons, ← List.cons_append, List.getLast?_concat, hx]

/-- Without an opening brace the regex cannot match. -/
theorem extract_none_of_no_lbrace (s : List Char) (h : ¬ lbrace ∈ s) :
    extractJsonSpan s = none := by
  have hd : s.dropWhile (fun c => ¬ (c = lbrace)) = [] := by
    rw [List.dropWhile_eq_nil_iff]
    intro a ha
    simp
    intro heq
    exact h (heq ▸ ha)
  unfold extractJsonSpan
  rw [hd]

/-- Without a closing brace the regex cannot match. -/
theorem extract_none_of_no_rbrace (s : List Char) (h : ¬ rbrace ∈ s) :
    extractJsonSpan s = none := by
  unfold extractJsonSpan
  cases ht : s.dropWhile (fun c => ¬ (c = lbrace)) with
  | nil => rfl
  | cons b rest =>
    simp only []
    have hsub : ¬ rbrace ∈ rest := by
      intro hm
      apply h
      have hsub2 : List.Sublist (b :: rest) s := ht ▸ List.dropWhile_sublist _
      exact hsub2.subset (List.mem_cons_of_mem _ hm)
    have hd : rest.reverse.dropWhile (fun c => ¬ (c = rbrace)) = [] := by
      rw [List.dropWhile_eq_nil_iff]
      intro a ha
      rw [List.mem_reverse] at ha
      simp
      intro heq
      exact hsub (heq ▸ ha)
    rw [hd]

/-- A reply with no opening brace yields the fixed ParseError. -/
theorem noJson_of_no_lbrace (s : List Char) (h : ¬ lbrace ∈ s) :
    processModelReply s = Except.error GenError.noJson := by
  unfold processModelReply
  rw [extract_none_of_no_lbrace s h]

/-- A reply with no closing brace yields the fixed ParseError. -/
theorem noJson_of_no_rbrace (s : List Char) (h : ¬ rbrace ∈ s) :
    processModelReply s = Except.error GenError.noJson := by
  unfold processModelReply
  rw [extract_none_of_no_rbrace s h]

/-- C7: corrected. The Generation Client extracts the GREEDY regex span of
the reply, from the first opening brace to the LAST closing brace, not the
first balanced object: every extracted span is the whole reply minus a
brace-free prefix and a close-brace-free suffix. A reply with no opening
brace (or none with a closing brace) fails with the fixed message "Failed to
parse JSON from model response"; the prose-wrapped example reply succeeds
with title "T", body "B" and the derived, non-empty slug "t". -/
theorem C7_reply_extraction_and_errors :
    (∀ s : List Char, ¬ lbrace ∈ s →
      processModelReply s = Except.error GenError.noJson) ∧
    (∀ s : List Char, ¬ rbrace ∈ s →
      processModelReply s = Except.error GenError.noJson) ∧
    GenError.message GenError.noJson = "Failed to parse JSON from model response" ∧
    (∀ s span : List Char, extractJsonSpan s = some span →
      ∃ pre mid : List Char,
        s = pre ++ span ++ mid ∧ ¬ lbrace ∈ pre ∧ ¬ rbrace ∈ mid ∧
        span.head? = some lbrace ∧ span.getLast? = some rbrace) ∧
    processModelReply ("Sure! \x7b\"title\":\"T\",\"body\":\"B\"\x7d".data) =
      Except.ok ⟨JSValue.str ("T".data), JSValue.str ("B".data),
        JSValue.str ("t".data)⟩ ∧
    ("t".data : List Char) ≠ [] :=
  ⟨noJson_of_no_lbrace, noJson_of_no_rbrace, rfl, extract_span_split, rfl, by decide⟩

/-- Witness for C7 at concrete inputs: a brace-free reply fails with the
fixed ParseError, and the span extracted from a braced reply splits it as
characterised. -/
theorem C7_witness :
    processModelReply ("no json at all".data) = Except.error GenError.noJson ∧
    (∃ pre mid : List Char,
      ("x\x7bA\x7dy".data : List Char) = pre ++ ("\x7bA\x7d".data) ++ mid ∧
      ¬ lbrace ∈ pre ∧ ¬ rbrace ∈ mid ∧
      ("\x7bA\x7d".data : List Char).head? = some lbrace ∧
      ("\x7bA\x7d".data : List Char).getLast? = some rbrace) :=
  ⟨C7_reply_extraction_and_errors.1 _ (by decide),
   C7_reply_extraction_and_errors.2.2.2.1 _ _ (by rfl)⟩

/-- Counterexample for C7: a reply holding a balanced JSON object followed by
one stray closing brace. The source's greedy extraction spans to the LAST
closing brace, `JSON.parse` rejects that span and the call fails, while the
spec's first-balanced-object extraction yields the parseable object whose
`title` and `body` are truthy, which the claim says must succeed. -/
theorem C7_counterexample :
    extractJsonSpan ("Sure! \x7b\"title\":\"T\",\"body\":\"B\"\x7d \x7d".data) =
      some ("\x7b\"title\":\"T\",\"body\":\"B\"\x7d \x7d".data) ∧
    jsonParse ("\x7b\"title\":\"T\",\"body\":\"B\"\x7d \x7d".data) = none ∧
    processModelReply ("Sure! \x7b\"title\":\"T\",\"body\":\"B\"\x7d \x7d".data) =
      Except.error GenError.badJson ∧
    firstBalancedObj ("Sure! \x7b\"title\":\"T\",\"body\":\"B\"\x7d \x7d".data) =
      some ("\x7b\"title\":\"T\",\"body\":\"B\"\x7d".data) ∧
    jsonParse ("\x7b\"title\":\"T\",\"body\":\"B\"\x7d".data) =
      some (JSValue.obj [(titleKey, JSValue.str ("T".data)),
                         (bodyKey, JSValue.str ("B".data))]) ∧
    jsFalsy (jsGet (JSValue.obj [(titleKey, JSValue.str ("T".data)),
      (bodyKey, JSValue.str ("B".data))]) titleKey) = false ∧
    jsFalsy (jsGet (JSValue.obj [(titleKey, JSValue.str ("T".data)),
      (bodyKey, JSValue.str ("B".data))]) bodyKey) = false :=
  ⟨rfl, rfl, rfl, rfl, rfl, rfl, rfl⟩

end BlogAutomate
